import Mathlib

/-!
Verification development for the corpus normalization-and-indexing engine of
the oro-spel repository.

The engine exists in two drifted generations in the source tree:
* `lib/utils.ts` (`getBaseWord`) — the Normalizer, shared by both generations;
* the rewritten unified-index server actions (`analyzeSentence`,
  `getSuggestions`, `addToPersonalCorpus`, `deletePersonalCorpusSentence`,
  `deletePersonalCorpusEntry`) backed by one `corpusIndex` table keyed by
  `(baseWord, userId)` plus a `personalCorpus` and a `globalSentence` table;
* the legacy generation (suffixed `Legacy` below) backed by per-letter global
  index JSON files plus a `personalCorpusIndex` table.

Strings are modelled by Lean `String` (a list of characters); character
classes from the JavaScript regular expressions are modelled by their code
points.  Database tables are modelled as lists of records, and `findMany`
with a `where` clause as `List.filter` in table order; `cuid()` generation of
fresh personal-sentence ids is modelled by a `nextId` counter producing the
non-numeric id strings "p0", "p1", ….
-/

/-- Code points of the punctuation class stripped by both generations, the
regular expression `[.,/#!$%^&*;:{}=\-_`~()?]` :
`.` 46, `,` 44, `/` 47, `#` 35, `!` 33, `$` 36, `%` 37, `^` 94, `&` 38,
`*` 42, `;` 59, `:` 58, left brace 123, right brace 125, `=` 61, `-` 45,
`_` 95, backtick 96, `~` 126, `(` 40, `)` 41, `?` 63. -/
def punctCodes : List Nat :=
  [46, 44, 47, 35, 33, 36, 37, 94, 38, 42, 59, 58, 123, 125, 61, 45, 95, 96, 126, 40, 41, 63]

/-- Membership of a character in the stripped punctuation class. -/
def isPunctChar (c : Char) : Bool :=
  punctCodes.contains c.toNat

/-- Models `str.replace(/[.,/#!$%^&*;:{}=\-_`~()?]/g, "")`: every occurrence
of a punctuation-class character is removed, anywhere in the string. -/
def stripPunct (l : List Char) : List Char :=
  l.filter (fun c => !(isPunctChar c))

/-- String-level punctuation stripping. -/
def stripPunctStr (s : String) : String :=
  ⟨stripPunct s.data⟩

/-- Models `String.prototype.toLowerCase` on one character, restricted to the
ASCII range (the only case-folding exercised by this code base): uppercase
A–Z (65–90) maps 32 code points up, everything else is unchanged. -/
def toLowerChar (c : Char) : Char :=
  if 65 ≤ c.toNat ∧ c.toNat ≤ 90 then Char.ofNat (c.toNat + 32) else c

/-- Code points of the line terminators that the JavaScript regular
expression metacharacter `.` does NOT match (no `s` flag is used in the
source): `\n` 10, `\r` 13, U+2028, U+2029. -/
def isLineTerm (c : Char) : Bool :=
  c.toNat = 10 || c.toNat = 13 || c.toNat = 8232 || c.toNat = 8233

/-- Models `str.replace(/(.)\1+/g, "$1")`: each maximal run of 2+ identical
consecutive characters collapses to a single instance.  Because `.` does not
match line terminators, runs of line terminators are left untouched. -/
def collapseRuns : List Char → List Char
  | [] => []
  | [c] => [c]
  | c :: d :: rest =>
    if c = d ∧ isLineTerm c = false then collapseRuns (d :: rest)
    else c :: collapseRuns (d :: rest)

/-- Embeds `getBaseWord` from `lib/utils.ts`:
falsy (empty) input returns the empty string; otherwise strip the punctuation
class, lower-case, and collapse runs of identical consecutive characters. -/
def getBaseWord (word : String) : String :=
  if word = ("") then ("")
  else ⟨collapseRuns ((stripPunct word.data).map toLowerChar)⟩

/-- Decides that a character list has no two equal adjacent characters except
line-terminator runs — exactly the fixed points of `collapseRuns`. -/
def noRunB : List Char → Bool
  | [] => true
  | [_] => true
  | c :: d :: rest =>
    if c = d ∧ isLineTerm c = false then false else noRunB (d :: rest)

/-- Decides that a character list has no two equal adjacent characters at
all (the stronger property claimed in C10). -/
def noAdjDupB : List Char → Bool
  | [] => true
  | [_] => true
  | c :: d :: rest => if c = d then false else noAdjDupB (d :: rest)

/-- Uppercase ASCII letter test. -/
def isUpperAscii (c : Char) : Bool :=
  65 ≤ c.toNat && c.toNat ≤ 90

/-- Statement of claim C10 exactly as written: the output of `getBaseWord`
has no uppercase ASCII letter, no stripped-punctuation character, and no two
equal adjacent characters. -/
def c10Claim (x : String) : Prop :=
  (∀ c ∈ (getBaseWord x).data, isUpperAscii c = false ∧ isPunctChar c = false) ∧
  noAdjDupB (getBaseWord x).data = true

-- ### Tokenization

/-- Code points of the ASCII whitespace characters matched by the JavaScript
`\s` class and removed by `trim` (space 32, tab 9, `\n` 10, `\v` 11, `\f` 12,
`\r` 13; the Unicode space characters are not exercised by this code base). -/
def isSpaceChar (c : Char) : Bool :=
  c.toNat = 32 || c.toNat = 9 || c.toNat = 10 || c.toNat = 11 || c.toNat = 12 || c.toNat = 13

/-- Accumulator-based splitter: emits the maximal runs of non-whitespace
characters, in order. -/
def splitWsAux : List Char → List Char → List (List Char)
  | [], acc => if acc = [] then [] else [acc.reverse]
  | c :: rest, acc =>
    if isSpaceChar c then
      if acc = [] then splitWsAux rest [] else acc.reverse :: splitWsAux rest []
    else splitWsAux rest (c :: acc)

/-- Models `sentence.split(/\s+/).filter(Boolean)`: the whitespace-delimited
tokens of the sentence with empty fragments discarded. -/
def splitWs (s : String) : List String :=
  (splitWsAux s.data []).map (fun l => ⟨l⟩)

-- ### The word-boundary regular-expression test of the unified analyzer

/-- Word characters of the JavaScript `\b` assertion (the `\w` class):
digits 48–57, uppercase 65–90, lowercase 97–122, underscore 95. -/
def isWordChar (c : Char) : Bool :=
  (48 ≤ c.toNat && c.toNat ≤ 57) || (65 ≤ c.toNat && c.toNat ≤ 90) ||
    (97 ≤ c.toNat && c.toNat ≤ 122) || c.toNat = 95

/-- Word-character test of the text character at index `i`, out-of-range
positions counting as non-word. -/
def wcAt (s : List Char) (i : Nat) : Bool :=
  match s[i]? with
  | some c => isWordChar c
  | none => false

/-- The `\b` assertion at position `i` of text `s`: the word-character status
changes between the previous character and the current one. -/
def boundaryAt (s : List Char) (i : Nat) : Bool :=
  (if i = 0 then false else wcAt s (i - 1)) != wcAt s i

/-- Case-insensitive (ASCII folding, the `i` flag) prefix test of pattern `w`
against text `s`. -/
def ciStartsWith : List Char → List Char → Bool
  | [], _ => true
  | _ :: _, [] => false
  | a :: w, b :: s => (toLowerChar a == toLowerChar b) && ciStartsWith w s

/-- Characters for which interpolating a token into the
`new RegExp("\\b" + word + "\\b", "i")` pattern keeps it a literal word:
ASCII code points other than backslash (92), plus (43), the square brackets
(91, 93) and the vertical bar (124) — the only regular-expression
metacharacters NOT removed by the punctuation strip that precedes pattern
construction in the source. -/
def isRegexSafeChar (c : Char) : Bool :=
  c.toNat < 128 &&
    !(c.toNat = 92 || c.toNat = 43 || c.toNat = 91 || c.toNat = 93 || c.toNat = 124)

/-- A match of pattern `\b` + `w` + `\b` starting at index `i` of `s`. -/
def matchesAt (w s : List Char) (i : Nat) : Bool :=
  boundaryAt s i && ciStartsWith w (s.drop i) && boundaryAt s (i + w.length)

/-- Models `new RegExp("\\b" + word + "\\b", "i").test(t)` from the unified
`analyzeSentence` as a literal case-insensitive word-boundary match.  This is
faithful exactly for pattern words made of `isRegexSafeChar` characters:
ASCII characters other than the five regular-expression metacharacters that
survive punctuation stripping (backslash 92, plus 43, left bracket 91, right
bracket 93, vertical bar 124).  Outside that region the source interpolates
the token into the pattern uninterpreted, so regular-expression semantics
(a `+` quantifier, for instance) or a thrown-and-caught error apply, and
theorems below that involve this test carry a hypothesis restricting the
tokens accordingly.  ASCII is required because the `i` flag's (non-`u`-mode)
canonicalization coincides with ASCII case folding exactly on ASCII pattern
characters. -/
def wbTestCI (w t : String) : Bool :=
  (List.range (t.data.length + 1)).any (fun i => matchesAt w.data t.data i)

-- ### Unified data model (rewritten generation, `corpusIndex` table)

/-- Result of a server action: either a tagged error or a value. -/
inductive DbRes (α : Type) where
  | error (msg : String)
  | ok (val : α)
deriving DecidableEq

/-- Row of the unified `corpusIndex` table, keyed by the compound unique key
`(baseWord, userId)`; `userId = none` is a global entry.  Global sentence
references are stored as numeric strings, personal ones as cuid strings. -/
structure IndexEntry where
  baseWord : String
  userId : Option String
  variants : List String
  sentenceIds : List String
deriving DecidableEq

/-- Row of the `personalCorpus` table (one appended personal sentence). -/
structure PersonalRow where
  id : String
  userId : String
  sentence : String
  words : List String
  baseWords : List String
deriving DecidableEq

/-- Row of the `globalSentence` table. -/
structure GlobalRow where
  id : Nat
  text : String
deriving DecidableEq

/-- The database: tables are lists in row order (`findMany` without an
`orderBy` returns rows in this order); `nextId` models `cuid()` generation
for new `personalCorpus` rows. -/
structure DB where
  corpusIndex : List IndexEntry
  personalCorpus : List PersonalRow
  globalSentence : List GlobalRow
  nextId : Nat
deriving DecidableEq

/-- Classification of one analyzed token. -/
inductive WordStatus where
  | correct
  | variant
  | unknown
deriving DecidableEq

/-- Result record for one analyzed token. -/
structure WordAnalysis where
  word : String
  baseWord : String
  status : WordStatus
  suggestions : List String
  position : Nat
deriving DecidableEq

/-- Fresh personal-sentence id (a cuid in the source; any non-numeric string
works, the model uses "p0", "p1", …). -/
def personalIdStr (n : Nat) : String :=
  ("p") ++ Nat.repr n

/-- Digit-folding helper for the numeric coercions below. -/
def digitsVal : List Char → Nat → Option Nat
  | [], acc => some acc
  | c :: r, acc =>
    if 48 ≤ c.toNat ∧ c.toNat ≤ 57 then digitsVal r (acc * 10 + (c.toNat - 48)) else none

/-- Models the JavaScript `Number(str)` coercion on the id strings in play:
the empty string coerces to 0, a pure digit string to its value, anything
else (in particular a cuid) to NaN, modelled as `none`.  Signed, fractional,
hexadecimal and whitespace-padded forms never occur as stored ids and are
outside the modelled fragment. -/
def jsNumberNat (s : String) : Option Nat :=
  digitsVal s.data 0

/-- Leading-digit run of a string. -/
def leadingDigits : List Char → List Char
  | [] => []
  | c :: r => if 48 ≤ c.toNat ∧ c.toNat ≤ 57 then c :: leadingDigits r else []

/-- Models `parseInt(str, 10)` on the id strings in play: the value of the
leading digit run, NaN (`none`) when there is none — so unlike `Number`,
`parseInt("")` is NaN. -/
def jsParseIntNat (s : String) : Option Nat :=
  match leadingDigits s.data with
  | [] => none
  | c :: r => some ((c :: r).foldl (fun acc d => acc * 10 + (d.toNat - 48)) 0)

/-- Models `(n).toString()` for the non-negative integer ids. -/
def numToStr (n : Nat) : String :=
  Nat.repr n

/-- The `where` clause shared by every unified index lookup:
`{ baseWord, OR: [{userId: null}, {userId: user.id}] }`. -/
def lookupEntries (st : DB) (u : String) (b : String) : List IndexEntry :=
  st.corpusIndex.filter (fun e => decide (e.baseWord = b ∧ (e.userId = none ∨ e.userId = some u)))

/-- The `where` clause of the overlap-mode lookup:
`{ baseWord: { in: baseWords }, OR: [{userId: null}, {userId: user.id}] }`. -/
def overlapEntries (st : DB) (u : String) (bs : List String) : List IndexEntry :=
  st.corpusIndex.filter (fun e => decide (e.baseWord ∈ bs ∧ (e.userId = none ∨ e.userId = some u)))

/-- Global sentence ids of a list of entries, coerced by `Number` with NaN
values discarded (a NaN in an `in` list matches no row). -/
def globalIdsOf (entries : List IndexEntry) : List Nat :=
  ((entries.filter (fun e => decide (e.userId = none))).flatMap
    (fun e => e.sentenceIds.map jsNumberNat)).reduceOption

/-- Personal sentence ids of a list of entries (the non-global ones). -/
def personalIdsOf (entries : List IndexEntry) : List String :=
  (entries.filter (fun e => decide (e.userId ≠ none))).flatMap (fun e => e.sentenceIds)

/-- Steps 2–3 of the unified `analyzeSentence` loop body: resolve the global
and personal sentence references of the entries for one base word to their
literal texts (global texts first, matching the concatenation order in the
source; the source also de-duplicates the id lists before the `in` queries,
which does not change which rows a filter returns). -/
def resolvedTexts (st : DB) (u : String) (b : String) : List String :=
  ((st.globalSentence.filter
      (fun r => (globalIdsOf (lookupEntries st u b)).contains r.id)).map (fun r => r.text)) ++
  ((st.personalCorpus.filter
      (fun r => (personalIdsOf (lookupEntries st u b)).contains r.id)).map (fun r => r.sentence))

/-- Loop body of the unified `analyzeSentence` for the token at one position:
`none` models `continue` for a token that strips to the empty string. -/
def analyzeToken (st : DB) (u : String) (p : Nat × String) : Option WordAnalysis :=
  let word := stripPunctStr p.2
  if word = ("") then none
  else
    let baseWord := getBaseWord word
    if lookupEntries st u baseWord = [] then
      some ⟨p.2, baseWord, WordStatus.unknown, [], p.1⟩
    else
      some ⟨p.2, baseWord,
        (if (resolvedTexts st u baseWord).any (fun t => wbTestCI word t) then
          WordStatus.correct
        else WordStatus.variant), [], p.1⟩

/-- Embeds the unified `analyzeSentence` server action: unauthenticated
callers are rejected; an empty or whitespace-only sentence short-circuits to
an empty analysis list; otherwise every whitespace token is analyzed in
order, tokens that strip to the empty string contributing nothing. -/
def analyzeSentence (st : DB) (user : Option String) (sentence : String) :
    DbRes (List WordAnalysis) :=
  match user with
  | none => DbRes.error ("Unauthorized")
  | some u =>
    if sentence.data.all isSpaceChar then DbRes.ok []
    else DbRes.ok (((splitWs sentence).enum).filterMap (analyzeToken st u))

-- ### Unified write path

/-- First-occurrence de-duplication in iteration order — the order a
JavaScript `Set` iterates its insertions. -/
def firstDedupAux {α : Type} [DecidableEq α] (seen : List α) : List α → List α
  | [] => []
  | x :: xs => if x ∈ seen then firstDedupAux seen xs else x :: firstDedupAux (x :: seen) xs

/-- Models `[...new Set(l)]`. -/
def firstDedup {α : Type} [DecidableEq α] (l : List α) : List α :=
  firstDedupAux [] l

/-- Applies `f` to the first element satisfying `p`, leaving the rest alone —
a Prisma `update` through a unique key. -/
def updateFirst {α : Type} (p : α → Bool) (f : α → α) : List α → List α
  | [] => []
  | e :: rest => if p e then f e :: rest else e :: updateFirst p f rest

/-- Drops the first element satisfying `p` — a Prisma `delete` through a
unique key. -/
def removeFirst {α : Type} (p : α → Bool) : List α → List α
  | [] => []
  | e :: rest => if p e then rest else e :: removeFirst p rest

/-- Models the `prisma.corpusIndex.upsert` of the unified
`addToPersonalCorpus` for one base word `b` of the new sentence: on the
compound key `(b, some u)` either push the new sentence id and one observed
variant, or create a fresh entry with the de-duplicated variants and the new
sentence id. -/
def upsertIndex (u : String) (b : String) (newId : String) (words : List String)
    (idx : List IndexEntry) : List IndexEntry :=
  if idx.any (fun e => decide (e.baseWord = b ∧ e.userId = some u)) then
    updateFirst (fun e => decide (e.baseWord = b ∧ e.userId = some u))
      (fun e =>
        { e with
          sentenceIds := e.sentenceIds ++ [newId],
          variants := e.variants ++
            [((words.find? (fun w => decide (getBaseWord w = b))).getD b)] })
      idx
  else
    idx ++ [⟨b, some u,
      firstDedup (words.filter (fun w => decide (getBaseWord w = b))), [newId]⟩]

/-- Loop body of the unified `addToPersonalCorpus` for one sentence:
whitespace-only sentences are skipped (`continue`); otherwise a
`personalCorpus` row is created with a fresh id, and one upsert runs per
DISTINCT non-empty base word of the sentence (`for (const baseWord of new
Set(baseWords))` with `if (!baseWord) continue`). -/
def addOneSentence (u : String) (st : DB) (s : String) : DB :=
  if s.data.all isSpaceChar then st
  else
    let words := splitWs s
    let baseWords := words.map getBaseWord
    let newId := personalIdStr st.nextId
    let row : PersonalRow := ⟨newId, u, s, words, baseWords⟩
    ⟨(firstDedup baseWords).foldl
        (fun idx b => if b = ("") then idx else upsertIndex u b newId words idx)
        st.corpusIndex,
      st.personalCorpus ++ [row], st.globalSentence, st.nextId + 1⟩

/-- Embeds the unified `addToPersonalCorpus` server action. -/
def addToPersonalCorpus (st : DB) (user : Option String) (sentences : List String) :
    DbRes DB :=
  match user with
  | none => DbRes.error ("Unauthorized")
  | some u => DbRes.ok (sentences.foldl (addOneSentence u) st)

-- ### Unified suggestion queries

/-- Request mode of `getSuggestions`. -/
inductive SuggMode where
  | single
  | overlap
deriving DecidableEq

/-- Result of the unified `getSuggestions`: a tagged union of the two mode
shapes (overlap items pair the sentence text with its overlap count) or an
error. -/
inductive SuggResult where
  | singleRes (suggestions : List String)
  | overlapRes (suggestions : List (String × Nat))
  | errorRes (msg : String)
deriving DecidableEq

/-- One `overlapMap.set(id, (overlapMap.get(id) || 0) + 1)` step on an
association list that keeps first-insertion key order, as a JavaScript `Map`
does. -/
def bump {κ : Type} [DecidableEq κ] (m : List (κ × Nat)) (sid : κ) : List (κ × Nat) :=
  if m.any (fun q => decide (q.1 = sid)) then
    m.map (fun q => if q.1 = sid then (q.1, q.2 + 1) else q)
  else m ++ [(sid, 1)]

/-- Step 2 of the overlap mode: count, per sentence id, how many fetched
index entries list it. -/
def buildOverlap (entries : List IndexEntry) : List (String × Nat) :=
  entries.foldl (fun m e => e.sentenceIds.foldl bump m) []

/-- Models the stable JavaScript `Array.prototype.sort` under the comparator
`(a, b) => b[1] - a[1]`: rows grouped by count, counts in descending order,
original order preserved inside a group. -/
def stableSortDescBy {κ : Type} [DecidableEq κ] (l : List (κ × Nat)) : List (κ × Nat) :=
  (List.insertionSort (fun a b => a ≥ b) (firstDedup (l.map (fun q => q.2)))).flatMap
    (fun c => l.filter (fun q => decide (q.2 = c)))

/-- Last-writer-wins association lookup — a JavaScript `Map` built by
successive `set` calls. -/
def lastAssoc (l : List (String × String)) (k : String) : Option String :=
  (l.reverse.find? (fun q => decide (q.1 = k))).map (fun q => q.2)

/-- Embeds the unified `getSuggestions` server action, both modes. -/
def getSuggestions (st : DB) (user : Option String) (words : List String)
    (mode : SuggMode) : SuggResult :=
  match user with
  | none => SuggResult.errorRes ("Unauthorized")
  | some u =>
    match (words.map getBaseWord).filter (fun b => decide (b ≠ (""))), mode with
    | [], _ =>
      match mode with
      | SuggMode.single => SuggResult.singleRes []
      | SuggMode.overlap => SuggResult.overlapRes []
    | b0 :: _, SuggMode.single =>
      let entries := (lookupEntries st u b0).take 20
      let gids :=
        ((firstDedup ((entries.filter (fun e => decide (e.userId = none))).flatMap
          (fun e => e.sentenceIds.map jsNumberNat))).take 10).reduceOption
      let pids :=
        (firstDedup ((entries.filter (fun e => decide (e.userId ≠ none))).flatMap
          (fun e => e.sentenceIds))).take 10
      SuggResult.singleRes (firstDedup
        (((st.globalSentence.filter (fun r => gids.contains r.id)).map (fun r => r.text)) ++
         ((st.personalCorpus.filter (fun r => pids.contains r.id)).map (fun r => r.sentence))))
    | b0 :: brest, SuggMode.overlap =>
      let baseWords := b0 :: brest
      let sorted :=
        (stableSortDescBy ((buildOverlap (overlapEntries st u baseWords)).filter
          (fun q => decide (q.2 > 1)))).take 15
      let gFetch := sorted.filterMap (fun q => jsParseIntNat q.1)
      let pFetch := (sorted.map (fun q => q.1)).filter (fun i => decide (jsParseIntNat i = none))
      let smap :=
        ((st.globalSentence.filter (fun r => gFetch.contains r.id)).map
          (fun r => (numToStr r.id, r.text))) ++
        ((st.personalCorpus.filter (fun r => pFetch.contains r.id)).map
          (fun r => (r.id, r.sentence)))
      SuggResult.overlapRes (sorted.filterMap (fun q =>
        match lastAssoc smap q.1 with
        | some t => if t = ("") then none else some (t, q.2)
        | none => none))

-- ### Unified deletion path

/-- Embeds `deletePersonalCorpusSentence`: find the caller's sentence row,
then for each stored base word of that sentence overwrite the caller's index
entry for it with its id list minus the deleted id, then delete the row. -/
def deletePersonalCorpusSentence (st : DB) (user : Option String) (sid : String) :
    DbRes DB :=
  match user with
  | none => DbRes.error ("Unauthorized")
  | some u =>
    if sid = ("") then DbRes.error ("Sentence ID is required")
    else
      match st.personalCorpus.find? (fun r => decide (r.id = sid ∧ r.userId = u)) with
      | none => DbRes.error ("Sentence not found")
      | some row =>
        DbRes.ok ⟨row.baseWords.foldl
            (fun idx b =>
              let newIds :=
                match idx.find? (fun e => decide (e.baseWord = b ∧ e.userId = some u)) with
                | some e => e.sentenceIds.filter (fun i => decide (i ≠ sid))
                | none => []
              idx.map (fun e =>
                if e.baseWord = b ∧ e.userId = some u then
                  { e with sentenceIds := newIds }
                else e))
            st.corpusIndex,
          st.personalCorpus.filter (fun r => decide (r.id ≠ sid)),
          st.globalSentence, st.nextId⟩

/-- Embeds `deletePersonalCorpusEntry`: find the caller's index entry for the
base word, delete every `personalCorpus` row it references (when it
references any), then delete the entry itself. -/
def deletePersonalCorpusEntry (st : DB) (user : Option String) (b : String) :
    DbRes DB :=
  match user with
  | none => DbRes.error ("Unauthorized")
  | some u =>
    if b = ("") then DbRes.error ("Base word is required")
    else
      match st.corpusIndex.find? (fun e => decide (e.baseWord = b ∧ e.userId = some u)) with
      | none => DbRes.error ("Entry not found")
      | some entry =>
        DbRes.ok ⟨removeFirst (fun e => decide (e.baseWord = b ∧ e.userId = some u))
            st.corpusIndex,
          (if entry.sentenceIds = [] then st.personalCorpus
           else st.personalCorpus.filter
             (fun r => decide (¬(r.id ∈ entry.sentenceIds ∧ r.userId = u)))),
          st.globalSentence, st.nextId⟩

/-- The consistency invariant of claim C8 for one user's personal scope:
every sentence reference of every personal index entry of that user resolves
to a still-existing `personalCorpus` row of that user. -/
def personalDanglingFree (st : DB) (u : String) : Bool :=
  (st.corpusIndex.filter (fun e => decide (e.userId = some u))).all
    (fun e => e.sentenceIds.all
      (fun i => st.personalCorpus.any (fun r => decide (r.id = i ∧ r.userId = u))))

-- ### Legacy data model (JSON global index + `personalCorpusIndex` table)

/-- Row of the legacy `personalCorpusIndex` table, keyed by the compound
unique key `(userId, baseWord)`. -/
structure PIEntry where
  baseWord : String
  userId : String
  variants : List String
  sentenceIds : List String
deriving DecidableEq

/-- The legacy storage: the per-letter global index JSON files as one
association from base word to global sentence ids (the first-letter bucketing
is a transparent storage partition), the chunked global sentence files as an
association from id to text (chunk arithmetic is likewise transparent, and a
missing chunk simply resolves no ids), the `personalCorpusIndex` table, and
the shared `personalCorpus` table. -/
structure LegacyDB where
  globalIndex : List (String × List Nat)
  globalTexts : List (Nat × String)
  personalIndex : List PIEntry
  personalCorpus : List PersonalRow
  nextId : Nat
deriving DecidableEq

/-- Embeds the legacy `getGlobalIndexData` helper: the id list recorded for
the base word, or `none` when the index has no key for it (an empty recorded
list is still truthy and is returned as is). -/
def getGlobalIndexData (st : LegacyDB) (b : String) : Option (List Nat) :=
  (st.globalIndex.find? (fun q => decide (q.1 = b))).map (fun q => q.2)

/-- Embeds the legacy `getSentencesByIds` helper: resolve ids to texts in
requested order, silently omitting ids that do not resolve. -/
def getSentencesByIds (st : LegacyDB) (ids : List Nat) : List String :=
  ids.filterMap (fun i => (st.globalTexts.find? (fun q => decide (q.1 = i))).map (fun q => q.2))

/-- Loop body of the legacy `analyzeSentence` for one token (note it records
the punctuation-stripped token, and decides `unknown` by the emptiness of the
resolved sentence set, not of the index entries). -/
def analyzeTokenLegacy (st : LegacyDB) (u : String) (p : Nat × String) :
    Option WordAnalysis :=
  let word := stripPunctStr p.2
  if word = ("") then none
  else
    let baseWord := getBaseWord word
    let gIdx := getGlobalIndexData st baseWord
    let pIdx := st.personalIndex.find? (fun e => decide (e.baseWord = baseWord ∧ e.userId = u))
    let globalSentences := getSentencesByIds st ((gIdx.getD []).take 20)
    let pIds := ((pIdx.map (fun e => e.sentenceIds)).getD []).take 20
    let personalSentences :=
      (st.personalCorpus.filter (fun r => pIds.contains r.id)).map (fun r => r.sentence)
    let allSentences := firstDedup (globalSentences ++ personalSentences)
    some ⟨word, baseWord,
      (if allSentences ≠ [] then
        (if allSentences.any (fun t => (splitWs t).contains word) then WordStatus.correct
         else WordStatus.variant)
       else WordStatus.unknown), [], p.1⟩

/-- Embeds the legacy `analyzeSentence` server action: note the guard
`if (!sentence) return { error: "Missing sentence" }` rejects the empty
sentence with an error. -/
def analyzeSentenceLegacy (st : LegacyDB) (user : Option String) (sentence : String) :
    DbRes (List WordAnalysis) :=
  match user with
  | none => DbRes.error ("Unauthorized")
  | some u =>
    if sentence = ("") then DbRes.error ("Missing sentence")
    else DbRes.ok (((splitWs sentence).enum).filterMap (analyzeTokenLegacy st u))

/-- Models the `prisma.personalCorpusIndex.upsert` of the legacy
`addToPersonalCorpus`, run once per TOKEN OCCURRENCE (not per distinct base
word): push the token and the new sentence id, or create the entry. -/
def upsertLegacy (u : String) (b : String) (word : String) (newId : String)
    (idx : List PIEntry) : List PIEntry :=
  if idx.any (fun e => decide (e.baseWord = b ∧ e.userId = u)) then
    updateFirst (fun e => decide (e.baseWord = b ∧ e.userId = u))
      (fun e =>
        { e with variants := e.variants ++ [word], sentenceIds := e.sentenceIds ++ [newId] })
      idx
  else idx ++ [⟨b, u, [word], [newId]⟩]

/-- Loop body of the legacy `addToPersonalCorpus` for one sentence: a
`personalCorpus` row is created unconditionally and the upsert runs once per
token position `i` with `word = words[i]`, `baseWord = baseWords[i]`. -/
def addOneSentenceLegacy (u : String) (st : LegacyDB) (s : String) : LegacyDB :=
  let words := splitWs s
  let baseWords := words.map getBaseWord
  let newId := personalIdStr st.nextId
  let row : PersonalRow := ⟨newId, u, s, words, baseWords⟩
  ⟨st.globalIndex, st.globalTexts,
    (words.zip baseWords).foldl (fun idx wb => upsertLegacy u wb.2 wb.1 newId idx)
      st.personalIndex,
    st.personalCorpus ++ [row], st.nextId + 1⟩

/-- Embeds the legacy `addToPersonalCorpus` server action. -/
def addToPersonalCorpusLegacy (st : LegacyDB) (user : Option String)
    (sentences : List String) : DbRes LegacyDB :=
  match user with
  | none => DbRes.error ("Unauthorized")
  | some u => DbRes.ok (sentences.foldl (addOneSentenceLegacy u) st)

/-- Result of the legacy `getSuggestions` (overlap items carry the global
sentence id, its text and the accumulated count). -/
inductive SuggResultL where
  | singleRes (suggestions : List String)
  | overlapRes (suggestions : List (Nat × String × Nat))
  | errorRes (msg : String)
deriving DecidableEq

/-- Embeds the legacy `getSuggestions` server action: single mode merges the
two scopes for the first base word; overlap mode counts GLOBAL sentence ids
once per input base-word OCCURRENCE (the input list is not de-duplicated),
keeps counts above 1, sorts stably by count descending, truncates to 10 and
resolves the ids positionally against the fetched texts. -/
def getSuggestionsLegacy (st : LegacyDB) (user : Option String) (words : List String)
    (mode : SuggMode) : SuggResultL :=
  match user with
  | none => SuggResultL.errorRes ("Unauthorized")
  | some u =>
    match (words.map getBaseWord).filter (fun b => decide (b ≠ (""))), mode with
    | [], _ =>
      match mode with
      | SuggMode.single => SuggResultL.singleRes []
      | SuggMode.overlap => SuggResultL.overlapRes []
    | b0 :: _, SuggMode.single =>
      let gIds := ((getGlobalIndexData st b0).getD []).take 10
      let pIdx := st.personalIndex.find? (fun e => decide (e.baseWord = b0 ∧ e.userId = u))
      let pIds := ((pIdx.map (fun e => e.sentenceIds)).getD []).take 10
      SuggResultL.singleRes (firstDedup
        (getSentencesByIds st gIds ++
          ((st.personalCorpus.filter (fun r => pIds.contains r.id)).map (fun r => r.sentence))))
    | b0 :: brest, SuggMode.overlap =>
      let baseWords := b0 :: brest
      let m := baseWords.foldl
        (fun m b => ((getGlobalIndexData st b).getD []).foldl bump m) []
      let sorted := (stableSortDescBy (m.filter (fun q => decide (q.2 > 1)))).take 10
      let sentences := getSentencesByIds st (sorted.map (fun q => q.1))
      SuggResultL.overlapRes ((sorted.enum).filterMap (fun p =>
        match sentences[p.1]? with
        | some t => if t = ("") then none else some (p.2.1, t, p.2.2)
        | none => none))

-- ### Claim-side predicates and concrete fixtures

/-- ASCII alphanumeric characters (letters and digits; note the underscore is
a regex word character but is also in the stripped punctuation class, so it
is deliberately excluded here). -/
def isAlphaNumChar (c : Char) : Bool :=
  (48 ≤ c.toNat && c.toNat ≤ 57) || (65 ≤ c.toNat && c.toNat ≤ 90) ||
    (97 ≤ c.toNat && c.toNat ≤ 122)

/-- Occurrence of `w` as a surface form of sentence `t` in the sense of the
specification's data model (a variant is a "literal surface token,
pre-normalization, post punctuation-strip"): some whitespace token of `t`
punctuation-strips to exactly `w`. -/
def occursAsSurfaceForm (w : String) (t : String) : Bool :=
  (splitWs t).any (fun tok => decide (stripPunctStr tok = w))

/-- Statement of claim C1 as written, at one analysis call: a token's status
is `unknown` exactly when its base word has no entry in either scope (and
then the suggestion list is empty); when entries exist the status is
`correct` exactly when the literal punctuation-stripped token occurs as a
surface form of some resolved sentence, and `variant` otherwise. -/
def c1ClaimAt (st : DB) (u : String) (s : String) : Prop :=
  ∀ l, analyzeSentence st (some u) s = DbRes.ok l →
    ∀ a ∈ l,
      (a.status = WordStatus.unknown ↔ lookupEntries st u a.baseWord = []) ∧
      (a.status = WordStatus.unknown → a.suggestions = []) ∧
      (lookupEntries st u a.baseWord ≠ [] →
        (a.status = WordStatus.correct ↔
          (resolvedTexts st u a.baseWord).any
            (fun t => occursAsSurfaceForm (stripPunctStr a.word) t) = true))

/-- Statement of claim C2 as written, at one round trip: after appending the
sentence to the caller's personal corpus, re-analyzing the exact same
sentence classifies every kept token as `correct`. -/
def c2ClaimAt (st : DB) (u : String) (s : String) : Prop :=
  ∀ st' l, addToPersonalCorpus st (some u) [s] = DbRes.ok st' →
    analyzeSentence st' (some u) s = DbRes.ok l →
    ∀ a ∈ l, a.status = WordStatus.correct

/-- Number of DISTINCT non-empty input base words whose visible (global or
caller-owned) unified index entries reference the sentence id `sid`. -/
def distinctMatchingBaseWords (st : DB) (u : String) (ws : List String) (sid : String) : Nat :=
  ((firstDedup ((ws.map getBaseWord).filter (fun b => decide (b ≠ (""))))).filter
    (fun b => (lookupEntries st u b).any (fun e => e.sentenceIds.contains sid))).length

/-- Number of DISTINCT non-empty input base words whose legacy global index
entry references the global sentence id `gid`. -/
def distinctBasesMatchingLegacy (st : LegacyDB) (ws : List String) (gid : Nat) : Nat :=
  ((firstDedup ((ws.map getBaseWord).filter (fun b => decide (b ≠ (""))))).filter
    (fun b => ((getGlobalIndexData st b).getD []).contains gid)).length

/-- Resolution of a unified sentence id against the table its identifier
space belongs to: numeric-string ids against `globalSentence`, the rest
against `personalCorpus`. -/
def resolveSentenceText (st : DB) (sid : String) : Option String :=
  match jsParseIntNat sid with
  | some n => (st.globalSentence.find? (fun r => decide (r.id = n))).map (fun r => r.text)
  | none => (st.personalCorpus.find? (fun r => decide (r.id = sid))).map (fun r => r.sentence)

/-- Consistency invariants of the unified store assumed by the overlap-count
characterization (all hold for states produced by the seed script and the
unified write path): the compound key `(baseWord, userId)` is unique; no
entry lists a sentence id twice; global entries hold canonical numeric id
strings; personal entries hold non-numeric id strings; the two sentence
tables have unique ids. -/
def overlapWF (st : DB) : Prop :=
  List.Pairwise (fun e1 e2 => ¬(e1.baseWord = e2.baseWord ∧ e1.userId = e2.userId))
    st.corpusIndex ∧
  (∀ e ∈ st.corpusIndex, e.sentenceIds.Nodup) ∧
  (∀ e ∈ st.corpusIndex, e.userId = none →
    ∀ i ∈ e.sentenceIds, (jsParseIntNat i).map numToStr = some i) ∧
  (∀ e ∈ st.corpusIndex, e.userId ≠ none →
    ∀ i ∈ e.sentenceIds, jsParseIntNat i = none) ∧
  (st.globalSentence.map (fun r => r.id)).Nodup ∧
  (st.personalCorpus.map (fun r => r.id)).Nodup

/-- The empty unified database. -/
def emptyDB : DB := ⟨[], [], [], 0⟩

/-- The empty legacy database. -/
def emptyLegacy : LegacyDB := ⟨[], [], [], [], 0⟩

/-- Fixture: one global entry for base word "hora" whose single referenced
global sentence is the exact text "hora". -/
def stGlobalHora : DB :=
  ⟨[⟨("hora"), none, [("hoorraa")], [("0")]⟩], [], [⟨0, ("hora")⟩], 0⟩

/-- Fixture: a legacy global index with one entry for "baga" referencing the
global sentence 0 with text "baga tokko". -/
def stLegacyBaga : LegacyDB :=
  ⟨[(("baga"), [0])], [(0, ("baga tokko"))], [], [], 0⟩

/-- Fixture: a unified store where global sentence 0 "baga hora" matches two
query base words, global sentence 1 "baga lama" only one, plus an unrelated
personal entry. -/
def stOverlapDemo : DB :=
  ⟨[⟨("baga"), none, [], [("0"), ("1")]⟩, ⟨("hora"), none, [], [("0")]⟩,
    ⟨("tokko"), some ("u"), [], [("p9")]⟩],
   [⟨("p9"), ("u"), ("tokko baga"), [], []⟩],
   [⟨0, ("baga hora")⟩, ⟨1, ("baga lama")⟩], 10⟩

/-- The analysis record produced for the token "Hora" of the C1 fixture. -/
def waHora : WordAnalysis := ⟨("Hora"), ("hora"), WordStatus.correct, [], 0⟩

/-- Proof-side reading of a count map: the value recorded for key `k`, zero
when the key is absent. -/
def overlapVal {κ : Type} [DecidableEq κ] (m : List (κ × Nat)) (k : κ) : Nat :=
  ((m.find? (fun q => decide (q.1 = k))).map (fun q => q.2)).getD 0

-- ## Theorems

-- ### Character-class lemmas

theorem punct_toNat_bounds {c : Char} (h : isPunctChar c = true) :
    c.toNat < 97 ∨ 122 < c.toNat := by
  have hm : c.toNat ∈ punctCodes := by
    simpa [isPunctChar] using h
  simp only [punctCodes, List.mem_cons, List.not_mem_nil, or_false] at hm
  omega

theorem punct_not_alnum {c : Char} (h : isPunctChar c = true) :
    ¬(48 ≤ c.toNat ∧ c.toNat ≤ 57) ∧ ¬(65 ≤ c.toNat ∧ c.toNat ≤ 90) ∧
    ¬(97 ≤ c.toNat ∧ c.toNat ≤ 122) := by
  have hm : c.toNat ∈ punctCodes := by
    simpa [isPunctChar] using h
  simp only [punctCodes, List.mem_cons, List.not_mem_nil, or_false] at hm
  omega

theorem toLowerChar_toNat (c : Char) :
    (toLowerChar c).toNat =
      if 65 ≤ c.toNat ∧ c.toNat ≤ 90 then c.toNat + 32 else c.toNat := by
  by_cases h : 65 ≤ c.toNat ∧ c.toNat ≤ 90
  · have hv : (c.toNat + 32).isValidChar := Or.inl (by omega)
    simp only [toLowerChar, if_pos h]
    simp [Char.ofNat, hv]
    rfl
  · simp [toLowerChar, h]

theorem toLowerChar_not_upper (c : Char) :
    ¬(65 ≤ (toLowerChar c).toNat ∧ (toLowerChar c).toNat ≤ 90) := by
  rw [toLowerChar_toNat]
  by_cases h : 65 ≤ c.toNat ∧ c.toNat ≤ 90 <;> simp [h] <;> omega

theorem toLowerChar_idem (c : Char) : toLowerChar (toLowerChar c) = toLowerChar c := by
  have h := toLowerChar_not_upper c
  rw [toLowerChar]
  simp only [if_neg h]

theorem toLowerChar_not_punct {c : Char} (h : isPunctChar c = false) :
    isPunctChar (toLowerChar c) = false := by
  by_cases hu : 65 ≤ c.toNat ∧ c.toNat ≤ 90
  · by_contra hp
    have hp' : isPunctChar (toLowerChar c) = true := by
      cases hq : isPunctChar (toLowerChar c)
      · exact absurd hq hp
      · rfl
    have hb := punct_toNat_bounds hp'
    rw [toLowerChar_toNat, if_pos hu] at hb
    omega
  · rw [toLowerChar, if_neg hu]
    exact h

-- ### collapseRuns lemmas

theorem collapseRuns_cons (c : Char) (l : List Char) :
    ∃ t, collapseRuns (c :: l) = c :: t := by
  induction l generalizing c with
  | nil => exact ⟨[], rfl⟩
  | cons d r ih =>
    by_cases h : c = d ∧ isLineTerm c = false
    · obtain ⟨t, ht⟩ := ih d
      exact ⟨t, by rw [collapseRuns, if_pos h, h.1, ht]⟩
    · exact ⟨collapseRuns (d :: r), by rw [collapseRuns, if_neg h]⟩

theorem noRunB_collapseRuns (l : List Char) : noRunB (collapseRuns l) = true := by
  induction l with
  | nil => rfl
  | cons c rest ih =>
    cases rest with
    | nil => rfl
    | cons d r =>
      by_cases h : c = d ∧ isLineTerm c = false
      · rw [collapseRuns, if_pos h]
        exact ih
      · rw [collapseRuns, if_neg h]
        obtain ⟨t, ht⟩ := collapseRuns_cons d r
        rw [ht]
        rw [ht] at ih
        rw [noRunB, if_neg h]
        exact ih

theorem collapseRuns_eq_self {l : List Char} (h : noRunB l = true) :
    collapseRuns l = l := by
  induction l with
  | nil => rfl
  | cons c rest ih =>
    cases rest with
    | nil => rfl
    | cons d r =>
      by_cases hc : c = d ∧ isLineTerm c = false
      · rw [noRunB, if_pos hc] at h
        exact absurd h (by simp)
      · rw [noRunB, if_neg hc] at h
        rw [collapseRuns, if_neg hc, ih h]

theorem mem_collapseRuns_subset {a : Char} {l : List Char}
    (h : a ∈ collapseRuns l) : a ∈ l := by
  induction l with
  | nil => simpa [collapseRuns] using h
  | cons c rest ih =>
    cases rest with
    | nil =>
      simpa [collapseRuns] using h
    | cons d r =>
      by_cases hc : c = d ∧ isLineTerm c = false
      · rw [collapseRuns, if_pos hc] at h
        exact List.mem_cons_of_mem c (ih h)
      · rw [collapseRuns, if_neg hc] at h
        rcases List.mem_cons.mp h with h1 | h2
        · exact h1 ▸ List.mem_cons_self a _
        · exact List.mem_cons_of_mem c (ih h2)

-- ### Normalizer helper lemmas

theorem mem_stripPunct_not_punct {a : Char} {l : List Char}
    (h : a ∈ stripPunct l) : isPunctChar a = false := by
  have := (List.mem_filter.mp h).2
  simpa using this

theorem listMapSelf {α : Type} {f : α → α} {l : List α}
    (h : ∀ a ∈ l, f a = a) : l.map f = l := by
  induction l with
  | nil => rfl
  | cons x xs ih =>
    rw [List.map_cons, h x (List.mem_cons_self x xs),
      ih (fun a ha => h a (List.mem_cons_of_mem x ha))]

theorem getBaseWord_chars {x : String} {c : Char} (hc : c ∈ (getBaseWord x).data) :
    isPunctChar c = false ∧ ¬(65 ≤ c.toNat ∧ c.toNat ≤ 90) := by
  rw [getBaseWord] at hc
  by_cases hx : x = ("")
  · rw [if_pos hx] at hc
    simp at hc
  · rw [if_neg hx] at hc
    have hc' : c ∈ (stripPunct x.data).map toLowerChar := mem_collapseRuns_subset hc
    obtain ⟨b, hb, rfl⟩ := List.mem_map.mp hc'
    exact ⟨toLowerChar_not_punct (mem_stripPunct_not_punct hb),
      toLowerChar_not_upper b⟩

/-- C5: the Normalizer is idempotent — `getBaseWord (getBaseWord x) = getBaseWord x`
for every string `x`. -/
theorem getBaseWord_idem (x : String) : getBaseWord (getBaseWord x) = getBaseWord x := by
  by_cases hx : getBaseWord x = ("")
  · rw [hx]
    rfl
  · rw [getBaseWord, if_neg hx]
    have hstrip : stripPunct (getBaseWord x).data = (getBaseWord x).data :=
      List.filter_eq_self.mpr (fun a ha => by
        simp [(getBaseWord_chars ha).1])
    rw [hstrip]
    have hlower : ((getBaseWord x).data).map toLowerChar = (getBaseWord x).data :=
      listMapSelf (fun a ha => by
        rw [toLowerChar]
        simp [(getBaseWord_chars ha).2])
    rw [hlower]
    have hdata : noRunB (getBaseWord x).data = true := by
      rw [getBaseWord]
      by_cases h0 : x = ("")
      · rw [if_pos h0]
        rfl
      · rw [if_neg h0]
        exact noRunB_collapseRuns _
    rw [collapseRuns_eq_self hdata]

/-- C6: the Normalizer's concrete examples — "Hoorraa" normalizes to "hora",
"gabbata!" to "gabata", "..." to the empty string, and "AAbbCC" to "abc". -/
theorem getBaseWord_examples :
    getBaseWord ("Hoorraa") = ("hora") ∧
    getBaseWord ("gabbata!") = ("gabata") ∧
    getBaseWord ("...") = ("") ∧
    getBaseWord ("AAbbCC") = ("abc") := by
  refine ⟨?_, ?_, ?_, ?_⟩ <;> decide

/-- C10 counterexample: on the input consisting of two newline characters the
output of `getBaseWord` is the same two newlines — the JavaScript regular
expression `(.)\1+` does not collapse line-terminator runs because `.` does
not match them — so the claimed "no two equal adjacent characters" fails. -/
theorem c10_counterexample : ¬ c10Claim ("\n\n") := by
  intro h
  exact absurd h.2 (by decide)

/-- C10 (amended): the output of `getBaseWord` contains no uppercase ASCII
letter and no stripped-punctuation character, and has no two equal adjacent
characters other than line terminators (`\n`, `\r`, U+2028, U+2029), whose
runs the collapse regex leaves intact. -/
theorem getBaseWord_fixed_point_shape (x : String) :
    (∀ c ∈ (getBaseWord x).data, isUpperAscii c = false ∧ isPunctChar c = false) ∧
    noRunB (getBaseWord x).data = true := by
  constructor
  · intro c hc
    obtain ⟨hp, hu⟩ := getBaseWord_chars hc
    refine ⟨?_, hp⟩
    simp [isUpperAscii]
    omega
  · rw [getBaseWord]
    by_cases h0 : x = ("")
    · rw [if_pos h0]
      rfl
    · rw [if_neg h0]
      exact noRunB_collapseRuns _

-- ### C9: scope isolation of the unified lookups

/-- C9: scope isolation — every index lookup performed by the unified
`analyzeSentence` (through `lookupEntries`) and `getSuggestions` (through
`lookupEntries` in single mode, `overlapEntries` in overlap mode) restricts
its results to entries owned by the global scope or the calling user, so no
entry owned by a different user `x` is ever consulted on behalf of `u`. -/
theorem c9_scope_isolation (st : DB) (u x b : String) (bs : List String) (e : IndexEntry)
    (hx : x ≠ u)
    (he : e ∈ lookupEntries st u b ∨ e ∈ overlapEntries st u bs) :
    e.userId ≠ some x := by
  intro heq
  have hscope : e.userId = none ∨ e.userId = some u := by
    rcases he with h | h
    · exact (of_decide_eq_true (List.mem_filter.mp h).2).2
    · exact (of_decide_eq_true (List.mem_filter.mp h).2).2
  rcases hscope with h0 | h0
  · rw [heq] at h0
    exact Option.noConfusion h0
  · rw [heq] at h0
    exact hx (Option.some.inj h0)

/-- Witness for C9 at a concrete store, user pair and entry. -/
theorem c9_scope_isolation_witness :
    (⟨("hora"), none, [("hoorraa")], [("0")]⟩ : IndexEntry).userId ≠ some ("bob") :=
  c9_scope_isolation stGlobalHora ("u") ("bob") ("hora") []
    ⟨("hora"), none, [("hoorraa")], [("0")]⟩ (by decide) (Or.inl (by decide))

-- ### C8: the entry-deletion cascade leaves dangling references

/-- C8: evaluating the code at the failing input — after ingesting the
sentence "baga hora" (which indexes it under both base words) and then
deleting the entry for "baga" via `deletePersonalCorpusEntry`, the surviving
entry for "hora" still references the personal sentence "p0" that the
cascade deleted, so the no-dangling-references invariant claimed for every
personal-scope deletion operation is violated by the code. -/
theorem c8_delete_entry_dangling :
    deletePersonalCorpusEntry (addOneSentence ("u") emptyDB ("baga hora")) (some ("u")) ("baga")
      = DbRes.ok ⟨[⟨("hora"), some ("u"), [("hora")], [("p0")]⟩], [], [], 1⟩ ∧
    personalDanglingFree ⟨[⟨("hora"), some ("u"), [("hora")], [("p0")]⟩], [], [], 1⟩ ("u")
      = false := by
  exact ⟨by decide, by decide⟩

-- ### C1: status decision counterexample

/-- C1 counterexample: in a store whose global entry for "hora" resolves to
the exact sentence text "hora", analyzing the token "Hora" produces status
`correct` (the source tests the sentence text with a case-insensitive
word-boundary regular expression), although the literal punctuation-stripped
token "Hora" does not occur as a surface form of any resolved sentence — so
the claimed "correct exactly on literal surface-form occurrence" is false. -/
theorem c1_counterexample : ¬ c1ClaimAt stGlobalHora ("u") ("Hora") := by
  intro h
  have h1 := h [⟨("Hora"), ("hora"), WordStatus.correct, [], 0⟩] (by decide)
  have h2 := h1 ⟨("Hora"), ("hora"), WordStatus.correct, [], 0⟩ (List.mem_singleton.mpr rfl)
  have h3 := (h2.2.2 (by decide)).mp rfl
  exact absurd h3 (by decide)

-- ### C2: round-trip counterexample

/-- C2 counterexample: the sentence "ho!ra" has a token that strips to the
non-empty word "hora", yet after appending it to the empty personal corpus,
re-analyzing the very same sentence classifies that kept token as `variant`,
not `correct` — the stored sentence text still contains the interior
punctuation, and the word-boundary test for "hora" fails on "ho!ra". -/
theorem c2_counterexample :
    ((splitWs ("ho!ra")).any (fun t => decide (stripPunctStr t ≠ ("")))) = true ∧
    ¬ c2ClaimAt emptyDB ("u") ("ho!ra") := by
  refine ⟨by decide, ?_⟩
  intro h
  have h1 := h (addOneSentence ("u") emptyDB ("ho!ra"))
    [⟨("ho!ra"), ("hora"), WordStatus.variant, [], 0⟩] (by decide) (by decide)
  have h2 := h1 ⟨("ho!ra"), ("hora"), WordStatus.variant, [], 0⟩ (List.mem_singleton.mpr rfl)
  exact absurd h2 (by decide)

-- ### C3: the legacy ingest adds one reference per occurrence

/-- C3 counterexample: ingesting the sentence "baga baga" through the legacy
`addToPersonalCorpus` leaves the entry for "baga" with the new sentence id
recorded TWICE (the legacy upsert loop runs once per token occurrence), so
"at most one sentence reference per base word" is false for this cited
ingest path. -/
theorem c3_counterexample :
    addToPersonalCorpusLegacy emptyLegacy (some ("u")) [("baga baga")] =
      DbRes.ok (addOneSentenceLegacy ("u") emptyLegacy ("baga baga")) ∧
    ¬ (∀ e ∈ (addOneSentenceLegacy ("u") emptyLegacy ("baga baga")).personalIndex,
        e.sentenceIds.count (personalIdStr 0) ≤ 1) := by
  exact ⟨rfl, by decide⟩

-- ### C4: the legacy overlap counts input occurrences, not distinct base words

/-- C4 counterexample: with the legacy overlap mode, querying the words
"baga" and "baga." (two occurrences of the SAME base word) against a store
where global sentence 0 contains "baga" returns that sentence with overlap
count 2, although only ONE distinct input base word matches it — so "only
sentences whose count of distinct matching input base words is strictly
greater than 1, paired with that count" is false for this cited
implementation. -/
theorem c4_counterexample :
    getSuggestionsLegacy stLegacyBaga (some ("u")) [("baga"), ("baga.")] SuggMode.overlap =
      SuggResultL.overlapRes [(0, ("baga tokko"), 2)] ∧
    distinctBasesMatchingLegacy stLegacyBaga [("baga"), ("baga.")] 0 = 1 := by
  exact ⟨by decide, by decide⟩

-- ### C7: the legacy analyzer rejects the empty sentence with an error

/-- C7 counterexample: for an authenticated caller the legacy
`analyzeSentence` applied to the empty sentence returns an error result, not
an empty analysis list. -/
theorem c7_counterexample :
    analyzeSentenceLegacy emptyLegacy (some ("u")) ("") = DbRes.error ("Missing sentence") :=
  rfl

-- ### C7 amended: empty-input behaviour of the two analyzers

theorem splitWsAux_nil_of_space {l : List Char}
    (h : ∀ c ∈ l, isSpaceChar c = true) : splitWsAux l [] = [] := by
  induction l with
  | nil => rfl
  | cons c rest ih =>
    have hc := h c (List.mem_cons_self c rest)
    rw [splitWsAux, if_pos hc, if_pos rfl]
    exact ih (fun d hd => h d (List.mem_cons_of_mem c hd))

theorem splitWs_nil_of_space {s : String}
    (h : s.data.all isSpaceChar = true) : splitWs s = [] := by
  rw [splitWs, splitWsAux_nil_of_space (List.all_eq_true.mp h)]
  rfl

/-- C7 (amended): for every authenticated caller, the unified
`analyzeSentence` returns an empty analysis list (not an error) on an empty
or whitespace-only sentence; the legacy `analyzeSentence` does so for a
whitespace-only non-empty sentence but rejects the empty sentence with an
error (see the counterexample). -/
theorem c7_amended (st : DB) (lst : LegacyDB) (u s : String)
    (hs : s.data.all isSpaceChar = true) :
    analyzeSentence st (some u) s = DbRes.ok [] ∧
    (s ≠ ("") → analyzeSentenceLegacy lst (some u) s = DbRes.ok []) := by
  constructor
  · rw [analyzeSentence, if_pos hs]
  · intro hne
    rw [analyzeSentenceLegacy, if_neg hne, splitWs_nil_of_space hs]
    rfl

/-- Witness for C7 (amended) at a one-space sentence. -/
theorem c7_amended_witness :
    analyzeSentence emptyDB (some ("u")) (" ") = DbRes.ok [] ∧
    ((" ") ≠ ("") → analyzeSentenceLegacy emptyLegacy (some ("u")) (" ") = DbRes.ok []) :=
  c7_amended emptyDB emptyLegacy ("u") (" ") (by decide)

-- ### C1 amended: the per-token status characterization of the unified analyzer

theorem analyzeToken_spec {st : DB} {u : String} {p : Nat × String} {a : WordAnalysis}
    (h : analyzeToken st u p = some a) :
    a.suggestions = [] ∧
    stripPunctStr a.word ≠ ("") ∧
    a.baseWord = getBaseWord (stripPunctStr a.word) ∧
    (a.status = WordStatus.unknown ↔ lookupEntries st u a.baseWord = []) ∧
    (lookupEntries st u a.baseWord ≠ [] →
      (a.status = WordStatus.correct ↔
        (resolvedTexts st u a.baseWord).any
          (fun t => wbTestCI (stripPunctStr a.word) t) = true)) := by
  simp only [analyzeToken] at h
  split at h
  · exact absurd h (by simp)
  · rename_i hw
    split at h
    · rename_i he
      obtain rfl := (Option.some.inj h).symm
      refine ⟨rfl, hw, rfl, by simpa using he, fun hne => absurd he hne⟩
    · rename_i he
      obtain rfl := (Option.some.inj h).symm
      refine ⟨rfl, hw, rfl, ?_, fun _ => ?_⟩
      · constructor
        · intro hst
          by_cases hc : (resolvedTexts st u (getBaseWord (stripPunctStr p.2))).any
              (fun t => wbTestCI (stripPunctStr p.2) t) = true <;>
            simp [hc] at hst
        · intro hnil
          exact absurd hnil he
      · constructor
        · intro hst
          by_cases hc : (resolvedTexts st u (getBaseWord (stripPunctStr p.2))).any
              (fun t => wbTestCI (stripPunctStr p.2) t) = true
          · exact hc
          · simp [hc] at hst
        · intro hc
          simp [hc]

/-- C1 (amended): for every result token of the unified `analyzeSentence`
applied to a sentence whose punctuation-stripped tokens consist of regex-safe
ASCII characters — so the interpolated pattern is a literal word and the
model's test is the source's test — the suggestion list is empty, the
recorded base word is the normalization of the punctuation-stripped token
(which is non-empty), the status is `unknown` exactly when no global or
caller-owned entry exists for that base word, and when entries exist the
status is `correct` exactly when the stripped token matches
case-insensitively at a word-boundary-delimited position of some resolved
sentence text (else `variant`).  For tokens outside the hypothesis the
source applies regular-expression semantics to the surviving metacharacters,
or the `RegExp` constructor throws into the catch's error result. -/
theorem c1_amended (st : DB) (u s : String) (l : List WordAnalysis) (a : WordAnalysis)
    (hsafe : ∀ t ∈ splitWs s, (stripPunctStr t).data.all isRegexSafeChar = true)
    (hl : analyzeSentence st (some u) s = DbRes.ok l) (ha : a ∈ l) :
    a.suggestions = [] ∧
    stripPunctStr a.word ≠ ("") ∧
    a.baseWord = getBaseWord (stripPunctStr a.word) ∧
    (a.status = WordStatus.unknown ↔ lookupEntries st u a.baseWord = []) ∧
    (lookupEntries st u a.baseWord ≠ [] →
      (a.status = WordStatus.correct ↔
        (resolvedTexts st u a.baseWord).any
          (fun t => wbTestCI (stripPunctStr a.word) t) = true)) := by
  simp only [analyzeSentence] at hl
  split at hl
  · cases hl
    exact absurd ha (List.not_mem_nil a)
  · cases hl
    obtain ⟨p, _, hpa⟩ := List.mem_filterMap.mp ha
    exact analyzeToken_spec hpa

/-- Witness for C1 (amended) at the C1 fixture. -/
theorem c1_amended_witness :
    waHora.suggestions = [] ∧
    stripPunctStr waHora.word ≠ ("") ∧
    waHora.baseWord = getBaseWord (stripPunctStr waHora.word) ∧
    (waHora.status = WordStatus.unknown ↔ lookupEntries stGlobalHora ("u") waHora.baseWord = []) ∧
    (lookupEntries stGlobalHora ("u") waHora.baseWord ≠ [] →
      (waHora.status = WordStatus.correct ↔
        (resolvedTexts stGlobalHora ("u") waHora.baseWord).any
          (fun t => wbTestCI (stripPunctStr waHora.word) t) = true)) :=
  c1_amended stGlobalHora ("u") ("Hora") [waHora] waHora (by decide) (by decide)
    (by decide)

-- ### C3 amended: the unified ingest deduplicates sentence references

theorem mem_firstDedupAux {α : Type} [DecidableEq α] {a : α} {seen l : List α} :
    a ∈ firstDedupAux seen l ↔ a ∈ l ∧ a ∉ seen := by
  induction l generalizing seen with
  | nil => simp [firstDedupAux]
  | cons x xs ih =>
    by_cases hx : x ∈ seen
    · rw [firstDedupAux, if_pos hx, ih]
      constructor
      · exact fun h => ⟨List.mem_cons_of_mem x h.1, h.2⟩
      · rintro ⟨h1, h2⟩
        rcases List.mem_cons.mp h1 with rfl | h1
        · exact absurd hx h2
        · exact ⟨h1, h2⟩
    · rw [firstDedupAux, if_neg hx]
      constructor
      · intro h
        rcases List.mem_cons.mp h with rfl | h
        · exact ⟨List.mem_cons_self a xs, hx⟩
        · have := ih.mp h
          refine ⟨List.mem_cons_of_mem x this.1, fun hs => this.2 (List.mem_cons_of_mem x hs)⟩
      · rintro ⟨h1, h2⟩
        rcases List.mem_cons.mp h1 with rfl | h1
        · exact List.mem_cons_self a _
        · by_cases hax : a = x
          · subst hax
            exact List.mem_cons_self a _
          · exact List.mem_cons_of_mem x (ih.mpr ⟨h1, by
              intro hs
              rcases List.mem_cons.mp hs with h | h
              · exact hax h
              · exact h2 h⟩)

theorem mem_firstDedup {α : Type} [DecidableEq α] {a : α} {l : List α} :
    a ∈ firstDedup l ↔ a ∈ l := by
  rw [firstDedup, mem_firstDedupAux]
  simp

theorem nodup_firstDedupAux {α : Type} [DecidableEq α] (seen l : List α) :
    (firstDedupAux seen l).Nodup := by
  induction l generalizing seen with
  | nil => exact List.nodup_nil
  | cons x xs ih =>
    by_cases hx : x ∈ seen
    · rw [firstDedupAux, if_pos hx]
      exact ih seen
    · rw [firstDedupAux, if_neg hx]
      refine List.nodup_cons.mpr ⟨?_, ih (x :: seen)⟩
      intro hmem
      exact (mem_firstDedupAux.mp hmem).2 (List.mem_cons_self x seen)

theorem nodup_firstDedup {α : Type} [DecidableEq α] (l : List α) :
    (firstDedup l).Nodup :=
  nodup_firstDedupAux [] l

theorem updateFirst_mem_of_not_p {α : Type} {p : α → Bool} {f : α → α} {l : List α} {e : α}
    (he : e ∈ l) (hp : p e = false) : e ∈ updateFirst p f l := by
  induction l with
  | nil => exact absurd he (List.not_mem_nil e)
  | cons x xs ih =>
    rcases List.mem_cons.mp he with rfl | he
    · rw [updateFirst, if_neg (by simp [hp])]
      exact List.mem_cons_self e _
    · rw [updateFirst]
      split
      · exact List.mem_cons_of_mem _ he
      · exact List.mem_cons_of_mem x (ih he)

theorem updateFirst_exists {α : Type} {p : α → Bool} {f : α → α} {l : List α}
    (h : l.any p = true) : ∃ y ∈ l, p y = true ∧ f y ∈ updateFirst p f l := by
  induction l with
  | nil => simp at h
  | cons x xs ih =>
    by_cases hx : p x = true
    · exact ⟨x, List.mem_cons_self x xs, hx, by
        rw [updateFirst, if_pos hx]
        exact List.mem_cons_self (f x) xs⟩
    · have hx' : p x = false := by
        cases hq : p x
        · rfl
        · exact absurd hq hx
      have h' : xs.any p = true := by
        rcases List.any_eq_true.mp h with ⟨y, hy, hpy⟩
        rcases List.mem_cons.mp hy with rfl | hy
        · exact absurd hpy hx
        · exact List.any_eq_true.mpr ⟨y, hy, hpy⟩
      obtain ⟨y, hy, hpy, hfy⟩ := ih h'
      exact ⟨y, List.mem_cons_of_mem x hy, hpy, by
        rw [updateFirst, if_neg (by simp [hx'])]
        exact List.mem_cons_of_mem x hfy⟩

theorem mem_updateFirst {α : Type} {p : α → Bool} {f : α → α} {l : List α} {x : α}
    (hx : x ∈ updateFirst p f l) : x ∈ l ∨ ∃ y ∈ l, p y = true ∧ x = f y := by
  induction l with
  | nil => exact absurd hx (List.not_mem_nil x)
  | cons e xs ih =>
    rw [updateFirst] at hx
    split at hx
    · rename_i hpe
      rcases List.mem_cons.mp hx with rfl | hx
      · exact Or.inr ⟨e, List.mem_cons_self e xs, hpe, rfl⟩
      · exact Or.inl (List.mem_cons_of_mem e hx)
    · rcases List.mem_cons.mp hx with rfl | hx
      · exact Or.inl (List.mem_cons_self x xs)
      · rcases ih hx with h | ⟨y, hy, hpy, rfl⟩
        · exact Or.inl (List.mem_cons_of_mem e h)
        · exact Or.inr ⟨y, List.mem_cons_of_mem e hy, hpy, rfl⟩

theorem mem_upsertIndex {u b newId : String} {words : List String}
    {idx : List IndexEntry} {x : IndexEntry}
    (hx : x ∈ upsertIndex u b newId words idx) :
    x ∈ idx ∨
    ((x.baseWord = b ∧ x.userId = some u) ∧
      ((∃ y ∈ idx, y.baseWord = b ∧ y.userId = some u ∧
          x.sentenceIds = y.sentenceIds ++ [newId]) ∨
        x.sentenceIds = [newId])) := by
  rw [upsertIndex] at hx
  split at hx
  · rcases mem_updateFirst hx with h | ⟨y, hy, hpy, rfl⟩
    · exact Or.inl h
    · have hk := of_decide_eq_true hpy
      exact Or.inr ⟨⟨hk.1, hk.2⟩, Or.inl ⟨y, hy, hk.1, hk.2, rfl⟩⟩
  · rcases List.mem_append.mp hx with h | h
    · exact Or.inl h
    · rcases List.mem_singleton.mp h with rfl
      exact Or.inr ⟨⟨rfl, rfl⟩, Or.inr rfl⟩

theorem upsertIndex_exists (u b newId : String) (words : List String)
    (idx : List IndexEntry) :
    ∃ e ∈ upsertIndex u b newId words idx,
      e.baseWord = b ∧ e.userId = some u ∧ newId ∈ e.sentenceIds := by
  rw [upsertIndex]
  split
  · rename_i hany
    obtain ⟨y, hy, hpy, hfy⟩ := updateFirst_exists hany
    have hk := of_decide_eq_true hpy
    exact ⟨_, hfy, hk.1, hk.2, List.mem_append.mpr (Or.inr (List.mem_singleton.mpr rfl))⟩
  · exact ⟨_, List.mem_append.mpr (Or.inr (List.mem_singleton.mpr rfl)), rfl, rfl,
      List.mem_singleton.mpr rfl⟩

theorem upsertIndex_preserves {u b newId : String} {words : List String}
    {idx : List IndexEntry} {e : IndexEntry}
    (he : e ∈ idx) (hne : ¬(e.baseWord = b ∧ e.userId = some u)) :
    e ∈ upsertIndex u b newId words idx := by
  rw [upsertIndex]
  split
  · exact updateFirst_mem_of_not_p he (decide_eq_false hne)
  · exact List.mem_append.mpr (Or.inl he)

theorem foldUpsert_preserves {u newId : String} {words : List String}
    {rest : List String} {idx : List IndexEntry} {e : IndexEntry}
    (he : e ∈ idx) (hb : e.baseWord ∉ rest) :
    e ∈ rest.foldl
      (fun idx b => if b = ("") then idx else upsertIndex u b newId words idx) idx := by
  induction rest generalizing idx with
  | nil => exact he
  | cons b' rest' ih =>
    rw [List.foldl_cons]
    have hb' : e.baseWord ∉ rest' := fun h => hb (List.mem_cons_of_mem b' h)
    by_cases h0 : b' = ("")
    · rw [if_pos h0]
      exact ih he hb'
    · rw [if_neg h0]
      refine ih (upsertIndex_preserves he ?_) hb'
      rintro ⟨h1, _⟩
      exact hb (h1 ▸ List.mem_cons_self b' rest')

theorem foldUpsert_invariant {u newId : String} {words : List String}
    {bs : List String} {idx : List IndexEntry}
    (hnd : bs.Nodup)
    (h1 : ∀ e ∈ idx, e.sentenceIds.count newId ≤ 1)
    (h2 : ∀ e ∈ idx, e.baseWord ∈ bs → e.userId = some u → e.sentenceIds.count newId = 0) :
    (∀ e ∈ bs.foldl
        (fun idx b => if b = ("") then idx else upsertIndex u b newId words idx) idx,
      e.sentenceIds.count newId ≤ 1) ∧
    (∀ b ∈ bs, b ≠ ("") →
      ∃ e ∈ bs.foldl
          (fun idx b => if b = ("") then idx else upsertIndex u b newId words idx) idx,
        e.baseWord = b ∧ e.userId = some u ∧ e.sentenceIds.count newId = 1) := by
  induction bs generalizing idx with
  | nil => exact ⟨h1, by simp⟩
  | cons b rest ih =>
    have hndr : rest.Nodup := (List.nodup_cons.mp hnd).2
    have hbr : b ∉ rest := (List.nodup_cons.mp hnd).1
    rw [List.foldl_cons]
    by_cases h0 : b = ("")
    · rw [if_pos h0]
      have ih' := ih hndr h1
        (fun e he hb hu => h2 e he (List.mem_cons_of_mem b hb) hu)
      refine ⟨ih'.1, ?_⟩
      intro b' hb' hb'0
      rcases List.mem_cons.mp hb' with rfl | hb'
      · exact absurd h0 hb'0
      · exact ih'.2 b' hb' hb'0
    · rw [if_neg h0]
      have h1' : ∀ e ∈ upsertIndex u b newId words idx, e.sentenceIds.count newId ≤ 1 := by
        intro e he
        rcases mem_upsertIndex he with h | ⟨⟨hbw, hu⟩, h⟩
        · exact h1 e h
        · rcases h with ⟨y, hy, hyb, hyu, hids⟩ | hids
          · rw [hids, List.count_append,
              h2 y hy (hyb ▸ List.mem_cons_self b rest) hyu]
            simp
          · rw [hids]
            simp
      have h2' : ∀ e ∈ upsertIndex u b newId words idx,
          e.baseWord ∈ rest → e.userId = some u → e.sentenceIds.count newId = 0 := by
        intro e he hbw hu
        rcases mem_upsertIndex he with h | ⟨⟨hbw', _⟩, _⟩
        · exact h2 e h (List.mem_cons_of_mem b hbw) hu
        · exact absurd (hbw' ▸ hbw) hbr
      have ih' := ih hndr h1' h2'
      refine ⟨ih'.1, ?_⟩
      intro b' hb' hb'0
      rcases List.mem_cons.mp hb' with rfl | hb'
      · obtain ⟨e, he, heb, heu, hemem⟩ := upsertIndex_exists u b' newId words idx
        have hle := h1' e he
        have hge : 1 ≤ e.sentenceIds.count newId := List.one_le_count_iff.mpr hemem
        refine ⟨e, foldUpsert_preserves he (heb ▸ hbr), heb, heu, by omega⟩
      · exact ih'.2 b' hb' hb'0

/-- C3 (amended): one sentence ingested through the UNIFIED
`addToPersonalCorpus` adds at most one reference to the fresh sentence id in
every index entry — and exactly one in the caller's entry of each distinct
non-empty base word of the sentence — even when a base word occurs several
times in the sentence; the legacy ingest does not satisfy this (see the
counterexample). -/
theorem c3_amended (st st' : DB) (u s : String)
    (hfresh : ∀ e ∈ st.corpusIndex, (personalIdStr st.nextId) ∉ e.sentenceIds)
    (hadd : addToPersonalCorpus st (some u) [s] = DbRes.ok st') :
    (∀ e ∈ st'.corpusIndex, e.sentenceIds.count (personalIdStr st.nextId) ≤ 1) ∧
    (s.data.all isSpaceChar = false →
      ∀ b ∈ (splitWs s).map getBaseWord, b ≠ ("") →
        ∃ e ∈ st'.corpusIndex, e.baseWord = b ∧ e.userId = some u ∧
          e.sentenceIds.count (personalIdStr st.nextId) = 1) := by
  have hst' : st' = addOneSentence u st s := by
    simp only [addToPersonalCorpus, List.foldl_cons, List.foldl_nil] at hadd
    exact (DbRes.ok.inj hadd).symm
  subst hst'
  rw [addOneSentence]
  by_cases hsp : s.data.all isSpaceChar = true
  · rw [if_pos hsp]
    refine ⟨?_, ?_⟩
    · intro e he
      rw [List.count_eq_zero.mpr (hfresh e he)]
      omega
    · intro hcon
      rw [hsp] at hcon
      exact absurd hcon (by simp)
  · rw [if_neg hsp]
    have h1 : ∀ e ∈ st.corpusIndex, e.sentenceIds.count (personalIdStr st.nextId) ≤ 1 := by
      intro e he
      rw [List.count_eq_zero.mpr (hfresh e he)]
      omega
    have h2 : ∀ e ∈ st.corpusIndex,
        e.baseWord ∈ firstDedup ((splitWs s).map getBaseWord) → e.userId = some u →
        e.sentenceIds.count (personalIdStr st.nextId) = 0 :=
      fun e he _ _ => List.count_eq_zero.mpr (hfresh e he)
    have hinv := @foldUpsert_invariant u (personalIdStr st.nextId) (splitWs s)
      (firstDedup ((splitWs s).map getBaseWord)) st.corpusIndex
      (nodup_firstDedup _) h1 h2
    refine ⟨hinv.1, ?_⟩
    intro _ b hb hb0
    exact hinv.2 b (mem_firstDedup.mpr hb) hb0

/-- Witness for C3 (amended): ingesting "baga baga" into the empty store
yields exactly one reference in the entry for "baga". -/
theorem c3_amended_witness :
    (∀ e ∈ (addOneSentence ("u") emptyDB ("baga baga")).corpusIndex,
      e.sentenceIds.count (personalIdStr 0) ≤ 1) ∧
    ((("baga baga") : String).data.all isSpaceChar = false →
      ∀ b ∈ (splitWs ("baga baga")).map getBaseWord, b ≠ ("") →
        ∃ e ∈ (addOneSentence ("u") emptyDB ("baga baga")).corpusIndex,
          e.baseWord = b ∧ e.userId = some ("u") ∧
          e.sentenceIds.count (personalIdStr 0) = 1) :=
  c3_amended emptyDB (addOneSentence ("u") emptyDB ("baga baga")) ("u") ("baga baga")
    (by decide) (by decide)

-- ### C2 amended: tokenization and word-boundary matching lemmas

theorem splitWsAux_tokens {l : List Char} {acc : List Char} {t : List Char}
    (hacc : ∀ a ∈ acc, isSpaceChar a = false)
    (ht : t ∈ splitWsAux l acc) :
    t ≠ [] ∧ (∀ a ∈ t, isSpaceChar a = false) ∧
    ∃ pre post, acc.reverse ++ l = pre ++ t ++ post ∧
      (pre = [] ∨ ∃ c pre', pre = pre' ++ [c] ∧ isSpaceChar c = true) ∧
      (post = [] ∨ ∃ c post', post = c :: post' ∧ isSpaceChar c = true) := by
  induction l generalizing acc with
  | nil =>
    rw [splitWsAux] at ht
    split at ht
    · exact absurd ht (List.not_mem_nil t)
    · rename_i hane
      rcases List.mem_singleton.mp ht with rfl
      refine ⟨by simpa using hane, fun a ha => hacc a (List.mem_reverse.mp ha),
        [], [], by simp, Or.inl rfl, Or.inl rfl⟩
  | cons c rest ih =>
    rw [splitWsAux] at ht
    by_cases hc : isSpaceChar c = true
    · rw [if_pos hc] at ht
      by_cases ha0 : acc = []
      · rw [if_pos ha0] at ht
        obtain ⟨h1, h2, pre, post, heq, hpre, hpost⟩ := ih (by simp) ht
        subst ha0
        refine ⟨h1, h2, c :: pre, post, ?_, ?_, hpost⟩
        · simp only [List.reverse_nil, List.nil_append] at heq ⊢
          rw [heq]
          simp
        · rcases hpre with rfl | ⟨d, pre', rfl, hd⟩
          · exact Or.inr ⟨c, [], by simp, hc⟩
          · exact Or.inr ⟨d, c :: pre', by simp, hd⟩
      · rw [if_neg ha0] at ht
        rcases List.mem_cons.mp ht with rfl | ht
        · refine ⟨by simpa using ha0, fun a ha => hacc a (List.mem_reverse.mp ha),
            [], c :: rest, by simp, Or.inl rfl, Or.inr ⟨c, rest, rfl, hc⟩⟩
        · obtain ⟨h1, h2, pre, post, heq, hpre, hpost⟩ := ih (by simp) ht
          simp only [List.reverse_nil, List.nil_append] at heq
          refine ⟨h1, h2, acc.reverse ++ c :: pre, post, ?_, ?_, hpost⟩
          · rw [heq]
            simp
          · rcases hpre with rfl | ⟨d, pre', rfl, hd⟩
            · exact Or.inr ⟨c, acc.reverse, by simp, hc⟩
            · exact Or.inr ⟨d, acc.reverse ++ c :: pre', by simp, hd⟩
    · have hc' : isSpaceChar c = false := by
        cases hq : isSpaceChar c
        · rfl
        · exact absurd hq hc
      rw [if_neg hc] at ht
      have hacc' : ∀ a ∈ c :: acc, isSpaceChar a = false := by
        intro a ha
        rcases List.mem_cons.mp ha with rfl | ha
        · exact hc'
        · exact hacc a ha
      obtain ⟨h1, h2, pre, post, heq, hpre, hpost⟩ := ih hacc' ht
      rw [List.reverse_cons] at heq
      refine ⟨h1, h2, pre, post, ?_, hpre, hpost⟩
      rw [← heq]
      simp

theorem splitWs_token_decomp {s t : String} (ht : t ∈ splitWs s) :
    t.data ≠ [] ∧ (∀ a ∈ t.data, isSpaceChar a = false) ∧
    ∃ pre post, s.data = pre ++ t.data ++ post ∧
      (pre = [] ∨ ∃ c pre', pre = pre' ++ [c] ∧ isSpaceChar c = true) ∧
      (post = [] ∨ ∃ c post', post = c :: post' ∧ isSpaceChar c = true) := by
  rw [splitWs] at ht
  obtain ⟨tl, htl, rfl⟩ := List.mem_map.mp ht
  have hdec := splitWsAux_tokens (by simp) htl
  simpa using hdec

theorem space_not_word {c : Char} (h : isSpaceChar c = true) : isWordChar c = false := by
  cases hq : isWordChar c
  · rfl
  · exfalso
    simp only [isSpaceChar, Bool.or_eq_true, decide_eq_true_eq] at h
    simp only [isWordChar, Bool.or_eq_true, decide_eq_true_eq, Bool.and_eq_true] at hq
    omega

theorem alnum_word {c : Char} (h : isAlphaNumChar c = true) : isWordChar c = true := by
  simp only [isAlphaNumChar] at h
  simp only [isWordChar]
  simp only [Bool.or_eq_true, decide_eq_true_eq, Bool.and_eq_true] at h ⊢
  omega

theorem alnum_not_punct {c : Char} (h : isAlphaNumChar c = true) : isPunctChar c = false := by
  cases hq : isPunctChar c
  · rfl
  · exfalso
    have hb := punct_not_alnum hq
    simp only [isAlphaNumChar, Bool.or_eq_true, decide_eq_true_eq, Bool.and_eq_true] at h
    omega

theorem ciStartsWith_self_append (w post : List Char) :
    ciStartsWith w (w ++ post) = true := by
  induction w with
  | nil => rfl
  | cons a w' ih => simp [ciStartsWith, ih]

theorem wcAt_append_right (pre rest : List Char) :
    wcAt (pre ++ rest) pre.length = wcAt rest 0 := by
  rw [wcAt, wcAt, List.getElem?_append_right (Nat.le_refl pre.length), Nat.sub_self]

theorem wbTestCI_of_surface {w s : String} {pre post : List Char}
    (hs : s.data = pre ++ w.data ++ post) (hw : w.data ≠ [])
    (hwc : ∀ a ∈ w.data, isWordChar a = true)
    (hpre : pre = [] ∨ ∃ c pre', pre = pre' ++ [c] ∧ isSpaceChar c = true)
    (hpost : post = [] ∨ ∃ c post', post = c :: post' ∧ isSpaceChar c = true) :
    wbTestCI w s = true := by
  obtain ⟨wh, wt, hwht⟩ := List.exists_cons_of_ne_nil hw
  have h1 : s.data = pre ++ (w.data ++ post) := by rw [hs, List.append_assoc]
  have hcur : wcAt s.data pre.length = true := by
    rw [h1, wcAt_append_right, hwht]
    have : wcAt ((wh :: wt) ++ post) 0 = isWordChar wh := by
      simp [wcAt]
    rw [this]
    exact hwc wh (hwht ▸ List.mem_cons_self wh wt)
  have hb1 : boundaryAt s.data pre.length = true := by
    rcases hpre with rfl | ⟨c, pre', rfl, hcsp⟩
    · have hcur0 : wcAt s.data 0 = true := by simpa using hcur
      simp [boundaryAt, hcur0]
    · have hlen : (pre' ++ [c]).length = pre'.length + 1 := by simp
      have hprev : wcAt s.data ((pre' ++ [c]).length - 1) = false := by
        have h2 : s.data = pre' ++ ([c] ++ (w.data ++ post)) := by
          rw [h1, List.append_assoc]
        rw [hlen, Nat.add_sub_cancel, h2, wcAt_append_right]
        have : wcAt ([c] ++ (w.data ++ post)) 0 = isWordChar c := by
          simp [wcAt]
        rw [this]
        exact space_not_word hcsp
      rw [boundaryAt, if_neg (by omega), hprev, hcur]
      rfl
  have hb2 : boundaryAt s.data (pre.length + w.data.length) = true := by
    have hconcat : w.data = [] ∨ ∃ L lc, w.data = L ++ [lc] := by
      rcases List.eq_nil_or_concat w.data with h | ⟨L, lc, h⟩
      · exact Or.inl h
      · exact Or.inr ⟨L, lc, by simpa using h⟩
    obtain ⟨L, lc, hL⟩ := hconcat.resolve_left hw
    have hlenw : w.data.length = L.length + 1 := by rw [hL]; simp
    have hprev : wcAt s.data (pre.length + w.data.length - 1) = true := by
      have h2 : s.data = (pre ++ L) ++ ([lc] ++ post) := by
        rw [hs, hL]
        simp
      have h3 : pre.length + w.data.length - 1 = (pre ++ L).length := by
        rw [hlenw]
        simp
      rw [h3, h2, wcAt_append_right]
      have : wcAt ([lc] ++ post) 0 = isWordChar lc := by
        simp [wcAt]
      rw [this]
      exact hwc lc (hL ▸ List.mem_append.mpr (Or.inr (List.mem_singleton.mpr rfl)))
    have hcur2 : wcAt s.data (pre.length + w.data.length) = false := by
      have h2 : s.data = (pre ++ w.data) ++ post := by rw [hs]
      have h3 : pre.length + w.data.length = (pre ++ w.data).length := by simp
      rw [h3, h2, wcAt_append_right]
      rcases hpost with rfl | ⟨c, post', rfl, hcsp⟩
      · simp [wcAt]
      · have : wcAt (c :: post') 0 = isWordChar c := by
          simp [wcAt]
        rw [this]
        exact space_not_word hcsp
    rw [boundaryAt, if_neg (by rw [hlenw]; omega), hprev, hcur2]
    rfl
  have hci : ciStartsWith w.data (s.data.drop pre.length) = true := by
    rw [h1, List.drop_left]
    exact ciStartsWith_self_append w.data post
  rw [wbTestCI]
  refine List.any_eq_true.mpr ⟨pre.length, List.mem_range.mpr ?_, ?_⟩
  · rw [hs]
    simp only [List.length_append]
    omega
  · rw [matchesAt, hb1, hci, hb2]
    rfl

theorem stringMk_data (t : String) : (⟨t.data⟩ : String) = t := by
  cases t
  rfl

theorem string_ne_empty_of_data_ne_nil {t : String} (h : t.data ≠ []) : t ≠ ("") :=
  fun he => h (by rw [he])

theorem stripPunct_eq_self_of_alnum {l : List Char}
    (h : ∀ a ∈ l, isAlphaNumChar a = true) : stripPunct l = l := by
  rw [stripPunct]
  exact List.filter_eq_self.mpr (fun a ha => by simp [alnum_not_punct (h a ha)])

theorem stripPunctStr_eq_self {t : String}
    (h : ∀ a ∈ t.data, isAlphaNumChar a = true) : stripPunctStr t = t := by
  rw [stripPunctStr, stripPunct_eq_self_of_alnum h, stringMk_data]

theorem getBaseWord_ne_empty {t : String} (hne : t.data ≠ [])
    (h : ∀ a ∈ t.data, isAlphaNumChar a = true) : getBaseWord t ≠ ("") := by
  rw [getBaseWord, if_neg (string_ne_empty_of_data_ne_nil hne),
    stripPunct_eq_self_of_alnum h]
  obtain ⟨c, r, hcr⟩ := List.exists_cons_of_ne_nil hne
  rw [hcr, List.map_cons]
  obtain ⟨tt, htt⟩ := collapseRuns_cons (toLowerChar c) (r.map toLowerChar)
  rw [htt]
  intro he
  exact absurd (congrArg String.data he) (by simp)

theorem foldUpsert_exists {u newId : String} {words : List String}
    {bs : List String} {idx : List IndexEntry} {b : String}
    (hb : b ∈ bs) (hb0 : b ≠ ("")) :
    ∃ e ∈ bs.foldl
        (fun idx b => if b = ("") then idx else upsertIndex u b newId words idx) idx,
      e.baseWord = b ∧ e.userId = some u ∧ newId ∈ e.sentenceIds := by
  induction bs generalizing idx with
  | nil => exact absurd hb (List.not_mem_nil b)
  | cons b' rest ih =>
    rw [List.foldl_cons]
    by_cases h0 : b' = ("")
    · rw [if_pos h0]
      rcases List.mem_cons.mp hb with rfl | hb2
      · exact absurd h0 hb0
      · exact ih hb2
    · rw [if_neg h0]
      by_cases hbrest : b ∈ rest
      · exact ih hbrest
      · rcases List.mem_cons.mp hb with rfl | hb2
        · obtain ⟨e, he, h1, h2, h3⟩ := upsertIndex_exists u b newId words idx
          exact ⟨e, foldUpsert_preserves he (h1 ▸ hbrest), h1, h2, h3⟩
        · exact absurd hb2 hbrest

theorem analyzeToken_some {st : DB} {u : String} {p : Nat × String}
    (hw : stripPunctStr p.2 ≠ ("")) : ∃ a, analyzeToken st u p = some a := by
  rw [analyzeToken]
  simp only [if_neg hw]
  split
  · exact ⟨_, rfl⟩
  · exact ⟨_, rfl⟩

/-- C2 (amended): for any sentence with at least one token, all of whose
whitespace tokens consist solely of ASCII letters and digits, appending the
sentence to the caller's personal corpus through the unified
`addToPersonalCorpus` and re-running the unified `analyzeSentence` on the
exact same sentence classifies every (kept) token as `correct`; tokens
containing punctuation characters are excluded, as they can come back
`variant` (see the counterexample). -/
theorem c2_amended (st st' : DB) (u s : String)
    (htok : ∀ t ∈ splitWs s, t.data.all isAlphaNumChar = true)
    (hne : splitWs s ≠ [])
    (hadd : addToPersonalCorpus st (some u) [s] = DbRes.ok st') :
    ∃ l, analyzeSentence st' (some u) s = DbRes.ok l ∧ l ≠ [] ∧
      ∀ a ∈ l, a.status = WordStatus.correct := by
  have hst' : st' = addOneSentence u st s := by
    simp only [addToPersonalCorpus, List.foldl_cons, List.foldl_nil] at hadd
    exact (DbRes.ok.inj hadd).symm
  subst hst'
  have hsp : s.data.all isSpaceChar = false := by
    cases hq : s.data.all isSpaceChar
    · rfl
    · exact absurd (splitWs_nil_of_space hq) hne
  have hspn : ¬(s.data.all isSpaceChar = true) := by
    rw [hsp]
    simp
  have hA : addOneSentence u st s = ⟨
      (firstDedup ((splitWs s).map getBaseWord)).foldl
        (fun idx b => if b = ("") then idx
          else upsertIndex u b (personalIdStr st.nextId) (splitWs s) idx)
        st.corpusIndex,
      st.personalCorpus ++ [⟨personalIdStr st.nextId, u, s, splitWs s,
        (splitWs s).map getBaseWord⟩],
      st.globalSentence, st.nextId + 1⟩ := by
    rw [addOneSentence, if_neg hspn]
  have hkey : ∀ t ∈ splitWs s, ∃ e ∈ (addOneSentence u st s).corpusIndex,
      e.baseWord = getBaseWord t ∧ e.userId = some u ∧
      personalIdStr st.nextId ∈ e.sentenceIds := by
    intro t htmem
    have halnum : ∀ a ∈ t.data, isAlphaNumChar a = true :=
      List.all_eq_true.mp (htok t htmem)
    have hdec := splitWs_token_decomp htmem
    have hb0 : getBaseWord t ≠ ("") := getBaseWord_ne_empty hdec.1 halnum
    have hbmem : getBaseWord t ∈ firstDedup ((splitWs s).map getBaseWord) :=
      mem_firstDedup.mpr (List.mem_map.mpr ⟨t, htmem, rfl⟩)
    rw [hA]
    exact foldUpsert_exists hbmem hb0
  have htokcorrect : ∀ p ∈ (splitWs s).enum,
      analyzeToken (addOneSentence u st s) u p =
        some ⟨p.2, getBaseWord p.2, WordStatus.correct, [], p.1⟩ := by
    intro p hp
    obtain ⟨i, t⟩ := p
    have hmem := List.mem_enum hp
    have htmem : t ∈ splitWs s := hmem.2 ▸ List.getElem_mem hmem.1
    have halnum : ∀ a ∈ t.data, isAlphaNumChar a = true :=
      List.all_eq_true.mp (htok t htmem)
    obtain ⟨hdata_ne, hnospace, pre, post, hsdecomp, hpre, hpost⟩ :=
      splitWs_token_decomp htmem
    have hstrip : stripPunctStr t = t := stripPunctStr_eq_self halnum
    have htne : t ≠ ("") := string_ne_empty_of_data_ne_nil hdata_ne
    obtain ⟨e, hemem, heb, heu, heid⟩ := hkey t htmem
    have helookup : e ∈ lookupEntries (addOneSentence u st s) u (getBaseWord t) := by
      rw [lookupEntries]
      exact List.mem_filter.mpr ⟨hemem, decide_eq_true ⟨heb, Or.inr heu⟩⟩
    have hlookne : lookupEntries (addOneSentence u st s) u (getBaseWord t) ≠ [] :=
      List.ne_nil_of_mem helookup
    have hrowmem : (⟨personalIdStr st.nextId, u, s, splitWs s,
        (splitWs s).map getBaseWord⟩ : PersonalRow) ∈
        (addOneSentence u st s).personalCorpus := by
      rw [hA]
      exact List.mem_append.mpr (Or.inr (List.mem_singleton.mpr rfl))
    have hpid : personalIdStr st.nextId ∈
        personalIdsOf (lookupEntries (addOneSentence u st s) u (getBaseWord t)) := by
      rw [personalIdsOf]
      refine List.mem_flatMap.mpr ⟨e, ?_, heid⟩
      refine List.mem_filter.mpr ⟨helookup, decide_eq_true ?_⟩
      rw [heu]
      simp
    have hsmem : s ∈ resolvedTexts (addOneSentence u st s) u (getBaseWord t) := by
      rw [resolvedTexts]
      refine List.mem_append.mpr (Or.inr ?_)
      refine List.mem_map.mpr ⟨_, List.mem_filter.mpr ⟨hrowmem, ?_⟩, rfl⟩
      exact List.elem_iff.mpr hpid
    have hwb : wbTestCI t s = true := by
      refine wbTestCI_of_surface hsdecomp hdata_ne ?_ hpre hpost
      exact fun a ha => alnum_word (halnum a ha)
    have hanytrue : (resolvedTexts (addOneSentence u st s) u (getBaseWord t)).any
        (fun tx => wbTestCI t tx) = true :=
      List.any_eq_true.mpr ⟨s, hsmem, hwb⟩
    simp only [analyzeToken, hstrip]
    rw [if_neg htne, if_neg hlookne, hanytrue]
    rfl
  have hres : analyzeSentence (addOneSentence u st s) (some u) s =
      DbRes.ok (((splitWs s).enum).filterMap (analyzeToken (addOneSentence u st s) u)) := by
    rw [analyzeSentence, if_neg hspn]
  refine ⟨_, hres, ?_, ?_⟩
  · obtain ⟨t0, ts, hts⟩ := List.exists_cons_of_ne_nil hne
    intro hnil
    have h0 : ((0, t0) : Nat × String) ∈ (splitWs s).enum := by
      rw [hts, List.enum_cons]
      exact List.mem_cons_self _ _
    have hmem0 : (⟨t0, getBaseWord t0, WordStatus.correct, [], 0⟩ : WordAnalysis) ∈
        ((splitWs s).enum).filterMap (analyzeToken (addOneSentence u st s) u) :=
      List.mem_filterMap.mpr ⟨(0, t0), h0, htokcorrect (0, t0) h0⟩
    rw [hnil] at hmem0
    exact absurd hmem0 (List.not_mem_nil _)
  · intro a ha
    obtain ⟨p, hp, hpa⟩ := List.mem_filterMap.mp ha
    rw [htokcorrect p hp] at hpa
    rw [← Option.some.inj hpa]

/-- Witness for C2 (amended): the round trip of "baga hora" from the empty
store classifies both tokens `correct`. -/
theorem c2_amended_witness :
    ∃ l, analyzeSentence (addOneSentence ("u") emptyDB ("baga hora")) (some ("u"))
        ("baga hora") = DbRes.ok l ∧ l ≠ [] ∧
      ∀ a ∈ l, a.status = WordStatus.correct :=
  c2_amended emptyDB (addOneSentence ("u") emptyDB ("baga hora")) ("u") ("baga hora")
    (by decide) (by decide) (by decide)

-- ### C4 amended: counting lemmas for the overlap map

theorem bump_keys_nodup {κ : Type} [DecidableEq κ] {m : List (κ × Nat)} {sid : κ}
    (h : (m.map (fun q => q.1)).Nodup) :
    ((bump m sid).map (fun q => q.1)).Nodup := by
  rw [bump]
  split
  · have heq : (m.map (fun q => if q.1 = sid then (q.1, q.2 + 1) else q)).map
        (fun q => q.1) = m.map (fun q => q.1) := by
      rw [List.map_map]
      apply List.map_congr_left
      intro q _
      by_cases hq1 : q.1 = sid <;> simp [hq1]
    rw [heq]
    exact h
  · rename_i hany
    rw [List.map_append]
    have hnot : sid ∉ m.map (fun q => q.1) := by
      intro hmem
      obtain ⟨q, hq, hq1⟩ := List.mem_map.mp hmem
      exact hany (List.any_eq_true.mpr ⟨q, hq, by simp [hq1]⟩)
    simp only [List.map_cons, List.map_nil]
    rw [List.nodup_append]
    exact ⟨h, List.nodup_singleton sid, by
      intro a ha hb
      rcases List.mem_singleton.mp hb with rfl
      exact hnot ha⟩

theorem bump_val {κ : Type} [DecidableEq κ] {m : List (κ × Nat)} {sid k : κ} :
    overlapVal (bump m sid) k = overlapVal m k + (if k = sid then 1 else 0) := by
  rw [bump]
  split
  · rename_i hany
    rw [overlapVal, List.find?_map]
    have hcomp : ((fun q : κ × Nat => decide (q.1 = k)) ∘
        (fun q : κ × Nat => if q.1 = sid then (q.1, q.2 + 1) else q)) =
        (fun q : κ × Nat => decide (q.1 = k)) := by
      funext q
      by_cases hq : q.1 = sid <;> simp [hq]
    rw [hcomp]
    by_cases hk : k = sid
    · subst hk
      have h1 : (m.find? (fun q => decide (q.1 = k))).isSome := by
        refine List.find?_isSome.mpr ?_
        obtain ⟨x, hx, hpx⟩ := List.any_eq_true.mp hany
        exact ⟨x, hx, by simpa using hpx⟩
      obtain ⟨q, hq⟩ := Option.isSome_iff_exists.mp h1
      have hq1 : q.1 = k := by simpa using List.find?_some hq
      rw [hq, overlapVal, hq]
      simp [hq1]
    · rw [overlapVal]
      cases hq : m.find? (fun q => decide (q.1 = k)) with
      | none => simp [hk]
      | some q =>
        have hq1 : q.1 = k := by simpa using List.find?_some hq
        have hqid : (if q.1 = sid then (q.1, q.2 + 1) else q) = q := by
          rw [if_neg]
          rw [hq1]
          exact hk
        simp [hqid, hk]
  · rename_i hany
    rw [overlapVal, List.find?_append]
    by_cases hk : k = sid
    · subst hk
      have hnone : m.find? (fun q => decide (q.1 = k)) = none := by
        rw [List.find?_eq_none]
        intro x hx
        simp only [decide_eq_true_eq]
        intro hxk
        exact hany (List.any_eq_true.mpr ⟨x, hx, by simp [hxk]⟩)
      rw [hnone]
      simp [overlapVal, hnone, List.find?]
    · cases hq : m.find? (fun q => decide (q.1 = k)) with
      | none =>
        have hone : ([(sid, 1)].find? (fun q => decide (q.1 = k))) = none := by
          rw [List.find?_eq_none]
          intro x hx
          rcases List.mem_singleton.mp hx with rfl
          simp
          exact fun h => hk h.symm
        rw [hone]
        simp [overlapVal, hq, hk]
      | some q =>
        simp [overlapVal, hq, hk]

theorem foldl_bump_val {κ : Type} [DecidableEq κ] (ids : List κ) (m : List (κ × Nat))
    (hnd : (m.map (fun q => q.1)).Nodup) :
    (((ids.foldl bump m).map (fun q => q.1)).Nodup) ∧
    (∀ k, overlapVal (ids.foldl bump m) k = overlapVal m k + ids.count k) := by
  induction ids generalizing m with
  | nil => simp [hnd]
  | cons i rest ih =>
    rw [List.foldl_cons]
    obtain ⟨h1, h2⟩ := ih (bump m i) (bump_keys_nodup hnd)
    refine ⟨h1, fun k => ?_⟩
    rw [h2 k, bump_val, List.count_cons]
    by_cases hk : k = i
    · subst hk
      simp
      omega
    · have : (i == k) = false := by
        simp
        exact fun h => hk h.symm
      simp [hk, this]

theorem buildOverlap_val (entries : List IndexEntry) :
    (((buildOverlap entries).map (fun q => q.1)).Nodup) ∧
    (∀ sid, overlapVal (buildOverlap entries) sid =
      (entries.map (fun e => e.sentenceIds.count sid)).sum) := by
  rw [buildOverlap]
  suffices h : ∀ (m : List (String × Nat)), (m.map (fun q => q.1)).Nodup →
      (((entries.foldl (fun m e => e.sentenceIds.foldl bump m) m).map
        (fun q => q.1)).Nodup) ∧
      (∀ sid, overlapVal (entries.foldl (fun m e => e.sentenceIds.foldl bump m) m) sid =
        overlapVal m sid + (entries.map (fun e => e.sentenceIds.count sid)).sum) by
    obtain ⟨ha, hb⟩ := h [] (by simp)
    exact ⟨ha, fun sid => by
      rw [hb sid]
      simp [overlapVal]⟩
  induction entries with
  | nil => exact fun m hm => ⟨hm, fun sid => by simp⟩
  | cons e rest ih =>
    intro m hm
    rw [List.foldl_cons]
    obtain ⟨hi1, hi2⟩ := foldl_bump_val e.sentenceIds m hm
    obtain ⟨ha, hb⟩ := ih (e.sentenceIds.foldl bump m) hi1
    refine ⟨ha, fun sid => ?_⟩
    rw [hb sid, hi2 sid]
    simp
    omega

theorem find?_of_mem_keysNodup {κ : Type} [DecidableEq κ] {m : List (κ × Nat)}
    {k : κ} {c : Nat}
    (hnd : (m.map (fun q => q.1)).Nodup) (hmem : (k, c) ∈ m) :
    m.find? (fun q => decide (q.1 = k)) = some (k, c) := by
  induction m with
  | nil => exact absurd hmem (List.not_mem_nil _)
  | cons q rest ih =>
    rcases List.mem_cons.mp hmem with heq | hmem2
    · rw [← heq]
      rw [List.find?_cons]
      simp
    · have hq1 : q.1 ≠ k := by
        intro hq1
        have : k ∈ rest.map (fun q => q.1) :=
          List.mem_map.mpr ⟨(k, c), hmem2, rfl⟩
        rw [List.map_cons, List.nodup_cons] at hnd
        exact hnd.1 (hq1 ▸ this)
      have hrec := ih (by
        rw [List.map_cons, List.nodup_cons] at hnd
        exact hnd.2) hmem2
      rw [List.find?_cons, decide_eq_false hq1]
      exact hrec

theorem mem_buildOverlap_val {entries : List IndexEntry} {sid : String} {c : Nat}
    (hmem : (sid, c) ∈ buildOverlap entries) :
    c = (entries.map (fun e => e.sentenceIds.count sid)).sum := by
  obtain ⟨hnd, hval⟩ := buildOverlap_val entries
  have hfind := find?_of_mem_keysNodup hnd hmem
  have h2 := hval sid
  rw [overlapVal, hfind] at h2
  simpa using h2

theorem mem_buildOverlap_entry {entries : List IndexEntry} {sid : String} {c : Nat}
    (hmem : (sid, c) ∈ buildOverlap entries) (hc : 0 < c) :
    ∃ e ∈ entries, sid ∈ e.sentenceIds := by
  have hsum := mem_buildOverlap_val hmem
  by_contra h
  push_neg at h
  have hz : ∀ x ∈ entries.map (fun e => e.sentenceIds.count sid), x = 0 := by
    intro x hx
    obtain ⟨e, he, rfl⟩ := List.mem_map.mp hx
    exact List.count_eq_zero.mpr (h e he)
  rw [List.sum_eq_zero hz] at hsum
  omega

theorem sum_map_boole {α : Type} (l : List α) (p : α → Bool) :
    (l.map (fun x => if p x then 1 else 0)).sum = (l.filter p).length := by
  induction l with
  | nil => rfl
  | cons x xs ih =>
    rw [List.map_cons, List.sum_cons, List.filter_cons]
    by_cases hx : p x = true
    · rw [if_pos hx, hx]
      simp [ih]
      omega
    · have hx' : p x = false := by
        cases hq : p x
        · rfl
        · exact absurd hq hx
      rw [if_neg (by simp [hx']), hx']
      simp [ih]

theorem parse_ne_none_of_global {st : DB} {e : IndexEntry} {sid : String}
    (hwf : overlapWF st) (he : e ∈ st.corpusIndex) (hu : e.userId = none)
    (hs : sid ∈ e.sentenceIds) : jsParseIntNat sid ≠ none := by
  have := hwf.2.2.1 e he hu sid hs
  intro hn
  rw [hn] at this
  exact Option.noConfusion this

theorem overlap_count_eq_distinct (st : DB) (u : String) (ws : List String) (sid : String)
    (hwf : overlapWF st) :
    ((overlapEntries st u ((ws.map getBaseWord).filter (fun b => decide (b ≠ (""))))).map
      (fun e => e.sentenceIds.count sid)).sum =
    distinctMatchingBaseWords st u ws sid := by
  set bws := (ws.map getBaseWord).filter (fun b => decide (b ≠ (""))) with hbws
  set E := overlapEntries st u bws with hE
  have hEsub : ∀ e ∈ E, e ∈ st.corpusIndex ∧ e.baseWord ∈ bws ∧
      (e.userId = none ∨ e.userId = some u) := by
    intro e he
    have h := List.mem_filter.mp he
    exact ⟨h.1, (of_decide_eq_true h.2).1, (of_decide_eq_true h.2).2⟩
  have hcongr : E.map (fun e => e.sentenceIds.count sid) =
      E.map (fun e => if e.sentenceIds.contains sid then 1 else 0) := by
    apply List.map_congr_left
    intro e he
    have hnd : e.sentenceIds.Nodup := hwf.2.1 e (hEsub e he).1
    by_cases hmem : sid ∈ e.sentenceIds
    · have hle : e.sentenceIds.count sid ≤ 1 := List.nodup_iff_count_le_one.mp hnd sid
      have hge : 1 ≤ e.sentenceIds.count sid := List.one_le_count_iff.mpr hmem
      rw [if_pos (List.elem_iff.mpr hmem)]
      omega
    · rw [List.count_eq_zero.mpr hmem, if_neg (by
        intro hc
        exact hmem (List.elem_iff.mp hc))]
  rw [hcongr, sum_map_boole]
  -- F : the doubly filtered entry list
  rw [hE, overlapEntries, List.filter_filter]
  set F := st.corpusIndex.filter
    (fun e => e.sentenceIds.contains sid &&
      decide (e.baseWord ∈ bws ∧ (e.userId = none ∨ e.userId = some u))) with hF
  have hFmem : ∀ x, x ∈ F ↔ x ∈ st.corpusIndex ∧ x.baseWord ∈ bws ∧
      (x.userId = none ∨ x.userId = some u) ∧ sid ∈ x.sentenceIds := by
    intro x
    rw [hF, List.mem_filter]
    constructor
    · rintro ⟨h1, h2⟩
      rw [Bool.and_eq_true] at h2
      have h3 := of_decide_eq_true h2.2
      exact ⟨h1, h3.1, h3.2, List.elem_iff.mp h2.1⟩
    · rintro ⟨h1, h2, h3, h4⟩
      exact ⟨h1, by
        rw [Bool.and_eq_true]
        exact ⟨List.elem_iff.mpr h4, decide_eq_true ⟨h2, h3⟩⟩⟩
  -- base words of F are pairwise distinct
  have hpwkey : List.Pairwise
      (fun a b : IndexEntry => ¬(a.baseWord = b.baseWord ∧ a.userId = b.userId)) F :=
    List.Pairwise.sublist (List.filter_sublist _) hwf.1
  have hpwbw : List.Pairwise (fun a b : IndexEntry => a.baseWord ≠ b.baseWord) F := by
    refine List.Pairwise.imp_of_mem ?_ hpwkey
    intro a b ha hb hkey heq
    apply hkey
    refine ⟨heq, ?_⟩
    obtain ⟨haI, -, hasc, hasid⟩ := (hFmem a).mp ha
    obtain ⟨hbI, -, hbsc, hbsid⟩ := (hFmem b).mp hb
    rcases hasc with ha0 | ha0 <;> rcases hbsc with hb0 | hb0
    · rw [ha0, hb0]
    · exact absurd (hwf.2.2.2.1 b hbI (by rw [hb0]; simp) sid hbsid)
        (parse_ne_none_of_global hwf haI ha0 hasid)
    · exact absurd (hwf.2.2.2.1 a haI (by rw [ha0]; simp) sid hasid)
        (parse_ne_none_of_global hwf hbI hb0 hbsid)
    · rw [ha0, hb0]
  have hFnodup : (F.map (fun e => e.baseWord)).Nodup :=
    List.pairwise_map.mpr hpwbw
  -- the right-hand side list
  rw [distinctMatchingBaseWords]
  set R := (firstDedup bws).filter
    (fun b => (lookupEntries st u b).any (fun e => e.sentenceIds.contains sid)) with hR
  have hRnodup : R.Nodup := List.Nodup.filter _ (nodup_firstDedup bws)
  have hmemiff : ∀ b, b ∈ F.map (fun e => e.baseWord) ↔ b ∈ R := by
    intro b
    constructor
    · intro hb
      obtain ⟨e, heF, rfl⟩ := List.mem_map.mp hb
      obtain ⟨h1, h2, h3, h4⟩ := (hFmem e).mp heF
      rw [hR, List.mem_filter]
      refine ⟨mem_firstDedup.mpr h2, List.any_eq_true.mpr ⟨e, ?_, List.elem_iff.mpr h4⟩⟩
      rw [lookupEntries, List.mem_filter]
      exact ⟨h1, decide_eq_true ⟨rfl, h3⟩⟩
    · intro hb
      rw [hR, List.mem_filter] at hb
      obtain ⟨e, he, hc⟩ := List.any_eq_true.mp hb.2
      have h := List.mem_filter.mp he
      have hk := of_decide_eq_true h.2
      refine List.mem_map.mpr ⟨e, ?_, hk.1⟩
      exact (hFmem e).mpr ⟨h.1, hk.1 ▸ mem_firstDedup.mp hb.1, hk.2,
        List.elem_iff.mp hc⟩
  -- equal lengths via finsets
  have hlen : (F.map (fun e => e.baseWord)).length = R.length := by
    rw [← List.toFinset_card_of_nodup hFnodup, ← List.toFinset_card_of_nodup hRnodup]
    congr 1
    apply Finset.ext
    intro b
    rw [List.mem_toFinset, List.mem_toFinset]
    exact hmemiff b
  rw [← hlen, List.length_map]

-- ### C4 amended: ordering lemmas for the stable descending sort

theorem mem_stableSortDescBy {κ : Type} [DecidableEq κ] {m : List (κ × Nat)}
    {x : κ × Nat} (hx : x ∈ stableSortDescBy m) : x ∈ m := by
  rw [stableSortDescBy] at hx
  obtain ⟨c, _, hx2⟩ := List.mem_flatMap.mp hx
  exact (List.mem_filter.mp hx2).1

theorem sorted_flatMap_groups {κ : Type} [DecidableEq κ] (m : List (κ × Nat)) :
    ∀ (cs : List Nat), List.Sorted (fun a b : Nat => a ≥ b) cs →
    List.Sorted (fun a b : Nat => a ≥ b)
      ((cs.flatMap (fun c => m.filter (fun q => decide (q.2 = c)))).map
        (fun q => q.2)) := by
  intro cs
  induction cs with
  | nil =>
    intro _
    simp
  | cons c rest ih =>
    intro hs
    have hs' := List.sorted_cons.mp hs
    rw [List.flatMap_cons, List.map_append]
    refine List.pairwise_append.mpr ⟨?_, ih hs'.2, ?_⟩
    · refine List.pairwise_map.mpr ?_
      refine List.pairwise_of_forall_mem_list ?_
      intro a ha b hb
      have ha2 : a.2 = c := of_decide_eq_true (List.mem_filter.mp ha).2
      have hb2 : b.2 = c := of_decide_eq_true (List.mem_filter.mp hb).2
      rw [ha2, hb2]
    · intro a ha b hb
      obtain ⟨x, hxmem, rfl⟩ := List.mem_map.mp ha
      obtain ⟨y, hymem, rfl⟩ := List.mem_map.mp hb
      have hx2 : x.2 = c := of_decide_eq_true (List.mem_filter.mp hxmem).2
      obtain ⟨c', hc', hy2⟩ := List.mem_flatMap.mp hymem
      have hy2' : y.2 = c' := of_decide_eq_true (List.mem_filter.mp hy2).2
      rw [hx2, hy2']
      exact hs'.1 c' hc'

theorem sorted_stableSortDescBy {κ : Type} [DecidableEq κ] (m : List (κ × Nat)) :
    List.Sorted (fun a b : Nat => a ≥ b) ((stableSortDescBy m).map (fun q => q.2)) := by
  rw [stableSortDescBy]
  exact sorted_flatMap_groups m _ (List.sorted_insertionSort _ _)

theorem filterMap_snd_sublist {f : (String × Nat) → Option (String × Nat)}
    (hf : ∀ q r, f q = some r → r.2 = q.2) (m : List (String × Nat)) :
    List.Sublist ((m.filterMap f).map (fun q => q.2)) (m.map (fun q => q.2)) := by
  induction m with
  | nil => simp
  | cons q m' ih =>
    rw [List.filterMap_cons]
    cases hq : f q with
    | none =>
      rw [List.map_cons]
      exact List.Sublist.cons _ ih
    | some r =>
      rw [List.map_cons, List.map_cons, hf q r hq]
      exact List.Sublist.cons₂ _ ih

-- ### C4 amended: the sentence map resolves ids against the right store

theorem sorted_key_canon {st : DB} {u : String} {bws : List String}
    {sorted : List (String × Nat)}
    (hwf : overlapWF st)
    (hsub : ∀ q ∈ sorted, q ∈ buildOverlap (overlapEntries st u bws) ∧ q.2 > 1) :
    ∀ q ∈ sorted, ∀ n, jsParseIntNat q.1 = some n → numToStr n = q.1 := by
  intro q hq n hn
  obtain ⟨hmem, hgt⟩ := hsub q hq
  obtain ⟨e, heE, hqid⟩ := mem_buildOverlap_entry hmem (by omega)
  have heI : e ∈ st.corpusIndex := (List.mem_filter.mp heE).1
  cases heu : e.userId with
  | none =>
    have hcanon := hwf.2.2.1 e heI heu q.1 hqid
    rw [hn] at hcanon
    exact Option.some.inj hcanon
  | some v =>
    have hnan := hwf.2.2.2.1 e heI (by rw [heu]; simp) q.1 hqid
    rw [hn] at hnan
    exact absurd hnan (by simp)

theorem lastAssoc_resolve {st : DB} {u : String} {bws : List String}
    {sorted : List (String × Nat)}
    (hwf : overlapWF st)
    (hsub : ∀ q ∈ sorted, q ∈ buildOverlap (overlapEntries st u bws) ∧ q.2 > 1)
    {sid t : String}
    (hla : lastAssoc
      (((st.globalSentence.filter
          (fun r => (sorted.filterMap (fun q => jsParseIntNat q.1)).contains r.id)).map
          (fun r => (numToStr r.id, r.text))) ++
        ((st.personalCorpus.filter
          (fun r => ((sorted.map (fun q => q.1)).filter
            (fun i => decide (jsParseIntNat i = none))).contains r.id)).map
          (fun r => (r.id, r.sentence))))
      sid = some t) :
    resolveSentenceText st sid = some t := by
  have hcanon := sorted_key_canon hwf hsub
  rw [lastAssoc] at hla
  cases hfind : (((st.globalSentence.filter
      (fun r => (sorted.filterMap (fun q => jsParseIntNat q.1)).contains r.id)).map
      (fun r => (numToStr r.id, r.text))) ++
    ((st.personalCorpus.filter
      (fun r => ((sorted.map (fun q => q.1)).filter
        (fun i => decide (jsParseIntNat i = none))).contains r.id)).map
      (fun r => (r.id, r.sentence)))).reverse.find?
      (fun q => decide (q.1 = sid)) with
  | none =>
    rw [hfind] at hla
    exact absurd hla (by simp)
  | some pair =>
    rw [hfind] at hla
    have ht : pair.2 = t := by simpa using hla
    have hkey : pair.1 = sid := by simpa using List.find?_some hfind
    have hpair : pair ∈ _ := List.mem_reverse.mp (List.mem_of_find?_eq_some hfind)
    rcases List.mem_append.mp hpair with hg | hp
    · -- a global-part pair
      obtain ⟨r, hrf, hpr⟩ := List.mem_map.mp hg
      have hrI : r ∈ st.globalSentence := (List.mem_filter.mp hrf).1
      have hrid : r.id ∈ sorted.filterMap (fun q => jsParseIntNat q.1) :=
        List.elem_iff.mp (List.mem_filter.mp hrf).2
      obtain ⟨q', hq', hq'parse⟩ := List.mem_filterMap.mp hrid
      have hq'canon : numToStr r.id = q'.1 := hcanon q' hq' r.id hq'parse
      have hq'sid : q'.1 = sid := by
        rw [← hq'canon, ← hkey, ← hpr]
      have hparse : jsParseIntNat sid = some r.id := hq'sid ▸ hq'parse
      simp only [resolveSentenceText, hparse]
      have hsome : ((st.globalSentence.find? (fun r' => decide (r'.id = r.id)))).isSome :=
        List.find?_isSome.mpr ⟨r, hrI, by simp⟩
      obtain ⟨r'', hr''⟩ := Option.isSome_iff_exists.mp hsome
      have hr''I : r'' ∈ st.globalSentence := List.mem_of_find?_eq_some hr''
      have hr''id : r''.id = r.id := by simpa using List.find?_some hr''
      have hrr : r'' = r :=
        List.inj_on_of_nodup_map hwf.2.2.2.2.1 hr''I hrI hr''id
      rw [hr'', hrr]
      rw [← ht, ← hpr]
      rfl
    · -- a personal-part pair
      obtain ⟨r, hrf, hpr⟩ := List.mem_map.mp hp
      have hrI : r ∈ st.personalCorpus := (List.mem_filter.mp hrf).1
      have hrid : r.id ∈ (sorted.map (fun q => q.1)).filter
          (fun i => decide (jsParseIntNat i = none)) :=
        List.elem_iff.mp (List.mem_filter.mp hrf).2
      have hrnan : jsParseIntNat r.id = none :=
        of_decide_eq_true (List.mem_filter.mp hrid).2
      have hridsid : r.id = sid := by
        rw [← hkey, ← hpr]
      have hparse : jsParseIntNat sid = none := hridsid ▸ hrnan
      simp only [resolveSentenceText, hparse]
      have hsome : ((st.personalCorpus.find? (fun r' => decide (r'.id = sid)))).isSome :=
        List.find?_isSome.mpr ⟨r, hrI, by simp [hridsid]⟩
      obtain ⟨r'', hr''⟩ := Option.isSome_iff_exists.mp hsome
      have hr''I : r'' ∈ st.personalCorpus := List.mem_of_find?_eq_some hr''
      have hr''id : r''.id = sid := by simpa using List.find?_some hr''
      have hrr : r'' = r :=
        List.inj_on_of_nodup_map hwf.2.2.2.2.2 hr''I hrI (by rw [hr''id, hridsid])
      rw [hr'', hrr]
      rw [← ht, ← hpr]
      rfl

/-- C4 (amended): the unified overlap mode returns at most 15 suggestions, in
non-increasing overlap-count order (the tie-break being the deterministic
first-insertion order of the count map), every returned suggestion has
overlap count strictly greater than 1, and — under the store's consistency
invariants — that count equals the number of DISTINCT non-empty input base
words whose visible entries reference the suggested sentence, whose text the
pair carries; the legacy overlap mode violates the distinctness part (see the
counterexample). -/
theorem c4_amended (st : DB) (u : String) (ws : List String) (l : List (String × Nat))
    (hwf : overlapWF st)
    (hres : getSuggestions st (some u) ws SuggMode.overlap = SuggResult.overlapRes l) :
    l.length ≤ 15 ∧
    List.Sorted (fun a b : Nat => a ≥ b) (l.map (fun q => q.2)) ∧
    ∀ q ∈ l, q.2 > 1 ∧
      ∃ sid, resolveSentenceText st sid = some q.1 ∧
        q.2 = distinctMatchingBaseWords st u ws sid := by
  simp only [getSuggestions] at hres
  cases hbw : (ws.map getBaseWord).filter (fun b => decide (b ≠ (""))) with
  | nil =>
    rw [hbw] at hres
    have hl : ([] : List (String × Nat)) = l := SuggResult.overlapRes.inj hres
    rw [← hl]
    refine ⟨by simp, by simp [List.sorted_nil], by simp⟩
  | cons b0 brest =>
    rw [hbw] at hres
    have hl := SuggResult.overlapRes.inj hres
    subst hl
    set S := (stableSortDescBy ((buildOverlap (overlapEntries st u (b0 :: brest))).filter
      (fun q => decide (q.2 > 1)))).take 15 with hS
    have hsubS : ∀ q ∈ S, q ∈ buildOverlap (overlapEntries st u (b0 :: brest)) ∧
        q.2 > 1 := by
      intro q hq
      have h1 := List.mem_of_mem_take (hS ▸ hq)
      have h2 := mem_stableSortDescBy h1
      have h3 := List.mem_filter.mp h2
      exact ⟨h3.1, of_decide_eq_true h3.2⟩
    have hfprop : ∀ (q r : String × Nat),
        (match lastAssoc
            (((st.globalSentence.filter
                (fun r => (S.filterMap (fun q => jsParseIntNat q.1)).contains r.id)).map
                (fun r => (numToStr r.id, r.text))) ++
              ((st.personalCorpus.filter
                (fun r => ((S.map (fun q => q.1)).filter
                  (fun i => decide (jsParseIntNat i = none))).contains r.id)).map
                (fun r => (r.id, r.sentence)))) q.1 with
          | some t => if t = ("") then none else some (t, q.2)
          | none => none) = some r → r.2 = q.2 := by
      intro q r h
      split at h
      · split at h
        · exact absurd h (by simp)
        · rw [← Option.some.inj h]
      · exact absurd h (by simp)
    refine ⟨?_, ?_, ?_⟩
    · calc _ ≤ S.length := List.length_filterMap_le _ _
        _ ≤ 15 := by
          rw [hS]
          exact List.length_take_le _ _
    · have hsub1 := filterMap_snd_sublist hfprop S
      refine List.Pairwise.sublist hsub1 ?_
      have hmt : S.map (fun q => q.2) =
          (((stableSortDescBy ((buildOverlap (overlapEntries st u (b0 :: brest))).filter
            (fun q => decide (q.2 > 1)))).map (fun q => q.2)).take 15) := by
        rw [hS, List.map_take]
      rw [hmt]
      exact List.Pairwise.sublist (List.take_sublist _ _) (sorted_stableSortDescBy _)
    · intro q hq
      obtain ⟨p, hpS, hfp⟩ := List.mem_filterMap.mp hq
      obtain ⟨hpbo, hpgt⟩ := hsubS p hpS
      split at hfp
      · rename_i t hla
        split at hfp
        · exact absurd hfp (by simp)
        · have hqt := Option.some.inj hfp
          rw [← hqt]
          refine ⟨hpgt, p.1, ?_, ?_⟩
          · exact lastAssoc_resolve hwf hsubS hla
          · have hsum := mem_buildOverlap_val hpbo
            have hdist := overlap_count_eq_distinct st u ws p.1 hwf
            rw [hbw] at hdist
            rw [hsum, hdist]
      · exact absurd hfp (by simp)

/-- Witness for C4 (amended) at the overlap fixture: querying ["baga",
"hora"] returns exactly global sentence 0 with distinct-base-word count 2. -/
theorem c4_amended_witness :
    ([(("baga hora"), 2)] : List (String × Nat)).length ≤ 15 ∧
    List.Sorted (fun a b : Nat => a ≥ b)
      (([(("baga hora"), 2)] : List (String × Nat)).map (fun q => q.2)) ∧
    ∀ q ∈ ([(("baga hora"), 2)] : List (String × Nat)), q.2 > 1 ∧
      ∃ sid, resolveSentenceText stOverlapDemo sid = some q.1 ∧
        q.2 = distinctMatchingBaseWords stOverlapDemo ("u") [("baga"), ("hora")] sid :=
  c4_amended stOverlapDemo ("u") [("baga"), ("hora")] [(("baga hora"), 2)]
    (by constructor
        · decide
        · constructor
          · decide
          · constructor
            · decide
            · constructor
              · decide
              · exact ⟨by decide, by decide⟩)
    (by decide)
